import Mathlib

/-!
# Verification of the bit-packing codec (`bit_packing.py`)

This file is a shallow embedding of the integer compression codec of
`src/bit_packing.py` (classes `BitPackingBase`, `SimpleBitPacking`,
`AlignedBitPacking`, `OverflowBitPacking`, `ZigZagBitPacking`), together
with proofs and refutations of the specification's claims about it.

Modelling conventions:
* Python's arbitrary-precision non-negative integers are modelled by `Nat`,
  signed integers by `Int`.  Python's `<<`, `>>`, `&`, `|`, `^` on
  non-negative ints coincide with `Nat`'s `<<<`, `>>>`, `&&&`, `|||`, `^^^`;
  on signed ints they coincide with Mathlib's two's-complement `Int.xor`,
  `Int.land` and the arithmetic-shift `ShiftLeft`/`ShiftRight` instances.
* A method body that can raise is modelled with `Except PyErr`; mutation of
  `self` is modelled by returning the updated state record (assignments that
  happen before a raise are preserved, as in Python).
* Python list indexing `a[i]` on in-range indices is modelled by
  `List.getD a i 0`; every out-of-range access the source can perform is
  modelled explicitly (as an error value, or with the guard the source has).
* The float expressions `len(sorted_values) * 0.3` and
  `int(max_bits * 0.6)` are modelled exactly: IEEE-754 double precision,
  round-to-nearest, ties-to-even (see `roundMantissa` below).
-/

/-! ## Bit length (Python `int.bit_length`) -/

/-- Fuel-driven helper for `bit_length`: number of binary digits of `n`,
computed structurally so that the kernel can evaluate it. -/
def blen : Nat → Nat → Nat
  | 0, _ => 0
  | fuel + 1, n => if n = 0 then 0 else blen fuel (n / 2) + 1

/-- Python's `int.bit_length()` for non-negative integers:
the number of bits needed to represent `n`, with `bit_length 0 = 0`. -/
def bit_length (n : Nat) : Nat := blen n n

theorem lt_two_pow_blen (fuel n : Nat) (h : n ≤ fuel) : n < 2 ^ blen fuel n := by
  induction fuel generalizing n with
  | zero => simpa [blen] using h
  | succ f ih =>
    by_cases hn : n = 0
    · simp [blen, hn]
    · have hd : n / 2 ≤ f := Nat.le_of_lt_succ
        (Nat.lt_of_lt_of_le (Nat.div_lt_self (Nat.pos_of_ne_zero hn) one_lt_two) h)
      have := ih (n / 2) hd
      simp only [blen, hn, if_false, pow_succ]
      omega

theorem blen_le (fuel n k : Nat) (h : n ≤ fuel) (hk : n < 2 ^ k) :
    blen fuel n ≤ k := by
  induction fuel generalizing n k with
  | zero => simp [blen]
  | succ f ih =>
    by_cases hn : n = 0
    · simp [blen, hn]
    · have hd : n / 2 ≤ f := Nat.le_of_lt_succ
        (Nat.lt_of_lt_of_le (Nat.div_lt_self (Nat.pos_of_ne_zero hn) one_lt_two) h)
      have hk1 : 1 ≤ k := by
        rcases Nat.eq_zero_or_pos k with rfl | h1
        · simp at hk; omega
        · exact h1
      have hdk : n / 2 < 2 ^ (k - 1) := by
        have : n < 2 ^ (k - 1) * 2 := by
          have : 2 ^ (k - 1) * 2 = 2 ^ k := by
            rw [← pow_succ]; congr 1; omega
          omega
        omega
      have := ih (n / 2) (k - 1) hd hdk
      simp only [blen, hn, if_false]
      omega

/-- `n < 2 ^ bit_length n`: `bit_length` bits always suffice for `n`. -/
theorem lt_two_pow_bit_length (n : Nat) : n < 2 ^ bit_length n :=
  lt_two_pow_blen n n le_rfl

/-- `bit_length n ≤ k` whenever `n` fits in `k` bits. -/
theorem bit_length_le (n k : Nat) (hk : n < 2 ^ k) : bit_length n ≤ k :=
  blen_le n n k le_rfl hk

/-! ## Minima and maxima of lists (Python `min` / `max` on non-empty lists) -/

/-- Python's `min` of a list of ints (call sites only use non-empty lists;
the value on `[]` is irrelevant and fixed to `0`). -/
def pyMin : List Int → Int
  | [] => 0
  | x :: xs => xs.foldl min x

/-- Python's `max` of a list of ints. -/
def pyMax : List Int → Int
  | [] => 0
  | x :: xs => xs.foldl max x

/-- Python's `max` of a list of non-negative ints. -/
def pyMaxN : List Nat → Nat
  | [] => 0
  | x :: xs => xs.foldl max x

theorem foldl_min_le_self {α : Type} [LinearOrder α] (xs : List α) (a : α) :
    xs.foldl min a ≤ a := by
  induction xs generalizing a with
  | nil => simp
  | cons y ys ih => exact le_trans (ih (min a y)) (min_le_left a y)

theorem foldl_min_le_mem {α : Type} [LinearOrder α] (xs : List α) (a x : α)
    (hx : x ∈ xs) : xs.foldl min a ≤ x := by
  induction xs generalizing a with
  | nil => cases hx
  | cons y ys ih =>
    rcases List.mem_cons.mp hx with rfl | h
    · exact le_trans (foldl_min_le_self ys (min a x)) (min_le_right a x)
    · exact ih (min a y) h

theorem le_foldl_max_self {α : Type} [LinearOrder α] (xs : List α) (a : α) :
    a ≤ xs.foldl max a := by
  induction xs generalizing a with
  | nil => simp
  | cons y ys ih => exact le_trans (le_max_left a y) (ih (max a y))

theorem mem_le_foldl_max {α : Type} [LinearOrder α] (xs : List α) (a x : α)
    (hx : x ∈ xs) : x ≤ xs.foldl max a := by
  induction xs generalizing a with
  | nil => cases hx
  | cons y ys ih =>
    rcases List.mem_cons.mp hx with rfl | h
    · exact le_trans (le_max_right a x) (le_foldl_max_self ys (max a x))
    · exact ih (max a y) h

theorem foldl_min_mem {α : Type} [LinearOrder α] (xs : List α) (a : α) :
    xs.foldl min a = a ∨ xs.foldl min a ∈ xs := by
  induction xs generalizing a with
  | nil => simp
  | cons y ys ih =>
    rcases ih (min a y) with h | h
    · rcases min_cases a y with ⟨h', _⟩ | ⟨h', _⟩
      · left; rw [List.foldl_cons, h, h']
      · right; rw [List.foldl_cons, h, h']; exact List.mem_cons_self y ys
    · right; exact List.mem_cons_of_mem y h

theorem foldl_max_mem {α : Type} [LinearOrder α] (xs : List α) (a : α) :
    xs.foldl max a = a ∨ xs.foldl max a ∈ xs := by
  induction xs generalizing a with
  | nil => simp
  | cons y ys ih =>
    rcases ih (max a y) with h | h
    · rcases max_cases a y with ⟨h', _⟩ | ⟨h', _⟩
      · left; rw [List.foldl_cons, h, h']
      · right; rw [List.foldl_cons, h, h']; exact List.mem_cons_self y ys
    · right; exact List.mem_cons_of_mem y h

theorem pyMin_le {l : List Int} {x : Int} (hx : x ∈ l) : pyMin l ≤ x := by
  cases l with
  | nil => cases hx
  | cons y ys =>
    rcases List.mem_cons.mp hx with rfl | h
    · exact foldl_min_le_self ys x
    · exact foldl_min_le_mem ys y x h

theorem le_pyMax {l : List Int} {x : Int} (hx : x ∈ l) : x ≤ pyMax l := by
  cases l with
  | nil => cases hx
  | cons y ys =>
    rcases List.mem_cons.mp hx with rfl | h
    · exact le_foldl_max_self ys x
    · exact mem_le_foldl_max ys y x h

theorem le_pyMaxN {l : List Nat} {x : Nat} (hx : x ∈ l) : x ≤ pyMaxN l := by
  cases l with
  | nil => cases hx
  | cons y ys =>
    rcases List.mem_cons.mp hx with rfl | h
    · exact le_foldl_max_self ys x
    · exact mem_le_foldl_max ys y x h

theorem pyMin_mem {l : List Int} (h : l ≠ []) : pyMin l ∈ l := by
  cases l with
  | nil => exact absurd rfl h
  | cons y ys =>
    rcases foldl_min_mem ys y with h' | h'
    · rw [pyMin, h']; exact List.mem_cons_self y ys
    · exact List.mem_cons_of_mem y h'

theorem pyMax_mem {l : List Int} (h : l ≠ []) : pyMax l ∈ l := by
  cases l with
  | nil => exact absurd rfl h
  | cons y ys =>
    rcases foldl_max_mem ys y with h' | h'
    · rw [pyMax, h']; exact List.mem_cons_self y ys
    · exact List.mem_cons_of_mem y h'

theorem pyMaxN_mem {l : List Nat} (h : l ≠ []) : pyMaxN l ∈ l := by
  cases l with
  | nil => exact absurd rfl h
  | cons y ys =>
    rcases foldl_max_mem ys y with h' | h'
    · rw [pyMaxN, h']; exact List.mem_cons_self y ys
    · exact List.mem_cons_of_mem y h'

/-! ## Exact model of the IEEE-754 double computations

`_analyze_overflow_strategy` evaluates `len(sorted_values) * 0.3` and
`int(max_bits * 0.6)` in Python floats (IEEE-754 binary64).  The nearest
double to `0.3` is `5404319552844595 / 2 ^ 54` and the nearest double to
`0.6` is `5404319552844595 / 2 ^ 53`.  An `int * float` multiplication
first converts the int to the nearest double, then multiplies with a
single round-to-nearest, ties-to-even rounding. -/

/-- Round a natural number to 53 significant bits (round-to-nearest,
ties-to-even), returning the exact rounded value as a natural number. -/
def roundMantissa (n : Nat) : Nat :=
  if n < 2 ^ 53 then n
  else
    let s := bit_length n - 53
    let q := n / 2 ^ s
    let r := n % 2 ^ s
    let half := 2 ^ (s - 1)
    let q' := if half < r ∨ (r = half ∧ q % 2 = 1) then q + 1 else q
    q' * 2 ^ s

/-- The common significand of the doubles `0.3` and `0.6`. -/
def mant03 : Nat := 5404319552844595

/-- Exact value of the Python float product `float(d) * 0.3`, scaled by
`2 ^ 54` (so the product as a real number is `mul03num d / 2 ^ 54`).
The model ignores overflow to infinity, which Python reaches only for
`d ≥ 2 ^ 1024`. -/
def mul03num (d : Nat) : Nat := roundMantissa (roundMantissa d * mant03)

/-- Python's `int(mb * 0.6)` (float product, truncated towards zero). -/
def int_mul06 (mb : Nat) : Nat := roundMantissa (roundMantissa mb * mant03) / 2 ^ 53

theorem roundMantissa_le (n : Nat) : roundMantissa n ≤ n + n / 2 ^ 53 := by
  rw [roundMantissa]
  by_cases h : n < 2 ^ 53
  · rw [if_pos h]; exact Nat.le_add_right n _
  · rw [if_neg h]
    simp only []
    have hbl : 2 ^ 53 ≤ n := Nat.le_of_not_lt h
    set s := bit_length n - 53 with hs
    have hble : 54 ≤ bit_length n := by
      by_contra hcon
      have h53 : bit_length n ≤ 53 := by omega
      have h2 := lt_two_pow_bit_length n
      have h3 : n < 2 ^ 53 :=
        lt_of_lt_of_le h2 (Nat.pow_le_pow_right (by norm_num) h53)
      omega
    have hsn : 2 ^ (s + 52) ≤ n := by
      have h1 : s + 52 = bit_length n - 1 := by omega
      rw [h1]
      by_contra hcon
      have h2 : n < 2 ^ (bit_length n - 1) := Nat.lt_of_not_le hcon
      have h3 : bit_length n ≤ bit_length n - 1 := bit_length_le n _ h2
      omega
    have hhalf : 2 ^ (s - 1) ≤ n / 2 ^ 53 := by
      have h2 : 2 ^ (s - 1) * 2 ^ 53 ≤ n := by
        calc 2 ^ (s - 1) * 2 ^ 53 = 2 ^ (s - 1 + 53) := by rw [pow_add]
        _ ≤ 2 ^ (s + 52) := Nat.pow_le_pow_right (by norm_num) (by omega)
        _ ≤ n := hsn
      exact (Nat.le_div_iff_mul_le (by positivity)).mpr h2
    have hqr : (n / 2 ^ s) * 2 ^ s + n % 2 ^ s = n := by
      rw [Nat.mul_comm, Nat.div_add_mod]
    have hss : 2 ^ s = 2 ^ (s - 1) + 2 ^ (s - 1) := by
      have h1 : 2 ^ (s - 1) * 2 = 2 ^ s := by
        rw [← pow_succ]
        congr 1
        omega
      omega
    by_cases hc : 2 ^ (s - 1) < n % 2 ^ s ∨
        (n % 2 ^ s = 2 ^ (s - 1) ∧ (n / 2 ^ s) % 2 = 1)
    · rw [if_pos hc]
      have hrh : 2 ^ (s - 1) ≤ n % 2 ^ s := by rcases hc with h1 | ⟨h1, _⟩ <;> omega
      have hmul : (n / 2 ^ s + 1) * 2 ^ s = (n / 2 ^ s) * 2 ^ s + 2 ^ s := by ring
      rw [hmul]
      omega
    · rw [if_neg hc]
      omega

theorem mul03num_le (d : Nat) : mul03num d ≤ 2 ^ 53 * d := by
  rw [mul03num]
  set D : Nat := 2 ^ 53 with hD
  have hDpos : 0 < D := by rw [hD]; positivity
  have hA : roundMantissa d ≤ d + d / D := roundMantissa_le d
  set A := roundMantissa d with hAdef
  set X := A * mant03 with hX
  have h1 : roundMantissa X ≤ X + X / D := roundMantissa_le X
  have h2 : X + X / D = X * (D + 1) / D := by
    have h3 : X * (D + 1) = X + X * D := by ring
    rw [h3, Nat.add_mul_div_right _ _ hDpos]
    omega
  have hAD : A * D ≤ d * (D + 1) := by
    have h6 : (d / D) * D ≤ d := Nat.div_mul_le_self d D
    calc A * D ≤ (d + d / D) * D := Nat.mul_le_mul_right D hA
    _ = d * D + (d / D) * D := by ring
    _ ≤ d * D + d := by omega
    _ = d * (D + 1) := by ring
  have hnum : mant03 * ((D + 1) * (D + 1)) ≤ D * (D * D) := by
    rw [hD]; unfold mant03; norm_num
  have hmain : X * (D + 1) * D ≤ (D * d) * (D * D) := by
    calc X * (D + 1) * D = (A * D) * (mant03 * (D + 1)) := by rw [hX]; ring
    _ ≤ (d * (D + 1)) * (mant03 * (D + 1)) := Nat.mul_le_mul_right _ hAD
    _ = d * (mant03 * ((D + 1) * (D + 1))) := by ring
    _ ≤ d * (D * (D * D)) := Nat.mul_le_mul_left d hnum
    _ = (D * d) * (D * D) := by ring
  have hfin : X * (D + 1) ≤ (D * d) * D := by
    have h7 : X * (D + 1) * D ≤ ((D * d) * D) * D := by
      calc X * (D + 1) * D ≤ (D * d) * (D * D) := hmain
      _ = ((D * d) * D) * D := by ring
    exact Nat.le_of_mul_le_mul_right h7 hDpos
  calc roundMantissa X ≤ X + X / D := h1
  _ = X * (D + 1) / D := h2
  _ ≤ (D * d) * D / D := Nat.div_le_div_right hfin
  _ = D * d := Nat.mul_div_cancel _ hDpos

/-- The heart of the 30%-threshold bound: when Python judges
`o < d * 0.3` true, then `2 * o < d`. -/
theorem lt_mul03_implies (o d : Nat) (h : o * 2 ^ 54 < mul03num d) : 2 * o < d := by
  have h1 : mul03num d ≤ 2 ^ 53 * d := mul03num_le d
  have h2 : o * 2 ^ 54 < 2 ^ 53 * d := lt_of_lt_of_le h h1
  have h3 : o * 2 ^ 54 = (2 * o) * 2 ^ 53 := by ring
  rw [h3] at h2
  have h4 : (2 * o) * 2 ^ 53 < d * 2 ^ 53 := by
    calc (2 * o) * 2 ^ 53 < 2 ^ 53 * d := h2
    _ = d * 2 ^ 53 := by ring
  exact Nat.lt_of_mul_lt_mul_right h4

/-! ## Errors raised by the codec -/

/-- The Python exceptions the modelled code can raise. -/
inductive PyErr where
  | indexError : PyErr
  | zeroDivisionError : PyErr
deriving DecidableEq

deriving instance DecidableEq for Except

/-! ## The BitField primitives

`SimpleBitPacking._write_bits` (lines 181-217) has no bounds guard before
its first word access, so a field whose starting word lies past the end of
the array raises `IndexError`; this is modelled by returning `none`.
`OverflowBitPacking._write_bits` (lines 608-629) guards that access
(`if int_index >= len(array): return`) and therefore never raises.
`_read_bits` is textually identical in both classes (lines 219-261 and
631-657) and is modelled once. -/

/-- `SimpleBitPacking._write_bits(array, start_bit, num_bits, value)`.
`none` models the `IndexError` raised by `array[int_index] |= ...` when
`int_index` is out of range. -/
def write_bits (array : List Nat) (start_bit num_bits value : Nat) :
    Option (List Nat) :=
  if num_bits = 0 then some array
  else
    let mask := (1 <<< num_bits) - 1
    let v := value &&& mask
    let int_index := start_bit / 32
    let bit_offset := start_bit % 32
    if int_index < array.length then
      if bit_offset + num_bits ≤ 32 then
        some (array.set int_index (array.getD int_index 0 ||| (v <<< bit_offset)))
      else
        let bits_in_first := 32 - bit_offset
        let first_mask := (1 <<< bits_in_first) - 1
        let a1 := array.set int_index
          (array.getD int_index 0 ||| ((v &&& first_mask) <<< bit_offset))
        if int_index + 1 < a1.length then
          some (a1.set (int_index + 1)
            (a1.getD (int_index + 1) 0 ||| (v >>> bits_in_first)))
        else
          some a1
    else
      none

/-- `OverflowBitPacking._write_bits`: same as `write_bits` but with the
`if int_index >= len(array): return` guard, hence total. -/
def overflow_write_bits (array : List Nat) (start_bit num_bits value : Nat) :
    List Nat :=
  if num_bits = 0 then array
  else
    let mask := (1 <<< num_bits) - 1
    let v := value &&& mask
    let int_index := start_bit / 32
    let bit_offset := start_bit % 32
    if array.length ≤ int_index then array
    else if bit_offset + num_bits ≤ 32 then
      array.set int_index (array.getD int_index 0 ||| (v <<< bit_offset))
    else
      let bits_in_first := 32 - bit_offset
      let first_mask := (1 <<< bits_in_first) - 1
      let a1 := array.set int_index
        (array.getD int_index 0 ||| ((v &&& first_mask) <<< bit_offset))
      if int_index + 1 < a1.length then
        a1.set (int_index + 1)
          (a1.getD (int_index + 1) 0 ||| (v >>> bits_in_first))
      else a1

/-- `_read_bits(array, start_bit, num_bits)` (identical in
`SimpleBitPacking` and `OverflowBitPacking`). -/
def read_bits (array : List Nat) (start_bit num_bits : Nat) : Nat :=
  if num_bits = 0 then 0
  else
    let int_index := start_bit / 32
    let bit_offset := start_bit % 32
    if array.length ≤ int_index then 0
    else if bit_offset + num_bits ≤ 32 then
      (array.getD int_index 0 >>> bit_offset) &&& ((1 <<< num_bits) - 1)
    else
      let bits_in_first := 32 - bit_offset
      let bits_in_second := num_bits - bits_in_first
      let first_part := (array.getD int_index 0 >>> bit_offset) &&&
        ((1 <<< bits_in_first) - 1)
      if int_index + 1 < array.length then
        first_part ||| ((array.getD (int_index + 1) 0 &&&
          ((1 <<< bits_in_second) - 1)) <<< bits_in_first)
      else first_part

/-! ## The width analyzer (`BitPackingBase._calculate_bits_needed`) -/

/-- `_calculate_bits_needed(array)` (lines 71-95), over Python ints. -/
def calculate_bits_needed (array : List Int) : Nat :=
  if array.isEmpty then 0
  else
    let min_val := pyMin array
    let max_val := pyMax array
    let range_val := if min_val < 0 then max_val - min_val else max_val
    if range_val > 0 then bit_length range_val.toNat else 1

/-! ## `SimpleBitPacking` -/

/-- The instance attributes of `BitPackingBase` used by `SimpleBitPacking`
(and by `ZigZagBitPacking`, which inherits from it). -/
structure SimpleState where
  compressed_data : List Nat := []
  original_length : Nat := 0
  bits_per_element : Nat := 0
deriving DecidableEq

/-- The packing loop of `SimpleBitPacking.compress`
(`for element_index, value in enumerate(array): ... _write_bits ...`). -/
def simple_write_loop (vals : List Nat) (b : Nat) (arr : List Nat) (idx : Nat) :
    Option (List Nat) :=
  match vals with
  | [] => some arr
  | v :: rest =>
    match write_bits arr (idx * b) b v with
    | none => none
    | some arr' => simple_write_loop rest b arr' (idx + 1)

/-- `SimpleBitPacking.compress` (lines 108-139).  Assignments to `self`
made before a potential raise are reflected in the returned state. -/
def simple_compress (s : SimpleState) (array : List Nat) :
    SimpleState × Except PyErr (List Nat) :=
  if array.isEmpty then (s, .ok [])
  else
    let s1 : SimpleState := { s with
      original_length := array.length,
      bits_per_element := calculate_bits_needed (array.map Int.ofNat) }
    let total_bits := s1.original_length * s1.bits_per_element
    let num_output_ints := (total_bits + 31) / 32
    match simple_write_loop array s1.bits_per_element
        (List.replicate num_output_ints 0) 0 with
    | none => (s1, .error .indexError)
    | some compressed =>
      ({ s1 with compressed_data := compressed }, .ok compressed)

/-- `SimpleBitPacking.decompress` (lines 141-160): a pure reader. -/
def simple_decompress (s : SimpleState) (compressed_array : List Nat) :
    SimpleState × Except PyErr (List Nat) :=
  if compressed_array.isEmpty then (s, .ok [])
  else
    (s, .ok ((List.range s.original_length).map fun element_index =>
      read_bits compressed_array (element_index * s.bits_per_element)
        s.bits_per_element))

/-- `SimpleBitPacking.get` (lines 162-179). -/
def simple_get (s : SimpleState) (index : Int) : Except PyErr Nat :=
  if index < 0 ∨ (s.original_length : Int) ≤ index then .error .indexError
  else
    .ok (read_bits s.compressed_data (index.toNat * s.bits_per_element)
      s.bits_per_element)

/-! ## `AlignedBitPacking` -/

/-- Instance attributes of `AlignedBitPacking`. -/
structure AlignedState where
  compressed_data : List Int := []
  original_length : Nat := 0
  bits_per_element : Nat := 0
  min_value : Int := 0
deriving DecidableEq

/-- The packing loop of `AlignedBitPacking.compress` (lines 313-318).
The shifted values are non-negative Python ints, modelled as `Nat`. -/
def aligned_pack_loop (shifted : List Nat) (b epi : Nat) (arr : List Nat)
    (i : Nat) : List Nat :=
  match shifted with
  | [] => arr
  | v :: rest =>
    let output_index := i / epi
    let bit_offset := (i % epi) * b
    aligned_pack_loop rest b epi
      (arr.set output_index (arr.getD output_index 0 ||| (v <<< bit_offset)))
      (i + 1)

/-- `AlignedBitPacking.compress` (lines 279-323).  When
`bits_per_element > 32`, `elements_per_int = 32 // bits_per_element` is `0`
and the line `(n + elements_per_int - 1) // elements_per_int` raises
`ZeroDivisionError`. -/
def aligned_compress (s : AlignedState) (array : List Int) :
    AlignedState × Except PyErr (List Int) :=
  if array.isEmpty then (s, .ok [])
  else
    let n := array.length
    let m := pyMin array
    let shifted : List Int := array.map (fun value => value - m)
    let b := calculate_bits_needed shifted
    let s1 : AlignedState := { s with
      original_length := n, min_value := m, bits_per_element := b }
    let epi := if b > 0 then 32 / b else 32
    if epi = 0 then (s1, .error .zeroDivisionError)
    else
      let num_output_ints := (n + epi - 1) / epi
      let compressed := aligned_pack_loop (shifted.map Int.toNat) b epi
        (List.replicate num_output_ints 0) 0
      let result : List Int := m :: compressed.map Int.ofNat
      ({ s1 with compressed_data := result }, .ok result)

/-- `AlignedBitPacking.decompress` (lines 325-358).  Note the assignment
`self.min_value = compressed_array[0]`, which mutates the instance. -/
def aligned_decompress (s : AlignedState) (compressed_array : List Int) :
    AlignedState × Except PyErr (List Int) :=
  if compressed_array.isEmpty ∨ compressed_array.length < 2 then (s, .ok [])
  else
    let s1 : AlignedState := { s with min_value := compressed_array.headD 0 }
    let actual := compressed_array.tail
    let epi := if s1.bits_per_element > 0 then 32 / s1.bits_per_element else 32
    let mask : Int := (1 <<< (s1.bits_per_element : Int)) - 1
    if epi = 0 ∧ s1.original_length ≠ 0 then (s1, .error .zeroDivisionError)
    else
      (s1, .ok ((List.range s1.original_length).map fun i =>
        let output_index := i / epi
        let bit_offset := (i % epi) * s1.bits_per_element
        if output_index < actual.length then
          Int.land (actual.getD output_index 0 >>> (bit_offset : Int)) mask
            + s1.min_value
        else 0))

/-- `AlignedBitPacking.get` (lines 360-391). -/
def aligned_get (s : AlignedState) (index : Int) : Except PyErr Int :=
  if index < 0 ∨ (s.original_length : Int) ≤ index then .error .indexError
  else
    let epi := if s.bits_per_element > 0 then 32 / s.bits_per_element else 32
    if epi = 0 then .error .zeroDivisionError
    else
      let i := index.toNat
      let output_index := i / epi
      let bit_offset := (i % epi) * s.bits_per_element
      let mask : Int := (1 <<< (s.bits_per_element : Int)) - 1
      let actual := s.compressed_data.tail
      if output_index < actual.length then
        .ok (Int.land (actual.getD output_index 0 >>> (bit_offset : Int)) mask
          + s.min_value)
      else .ok 0

/-! ## `OverflowBitPacking` -/

/-- Instance attributes of `OverflowBitPacking` (lines 406-413). -/
structure OverflowState where
  compressed_data : List Nat := []
  original_length : Nat := 0
  bits_per_element : Nat := 0
  overflow_data : List Nat := []
  overflow_bits : Nat := 0
  main_bits : Nat := 0
  has_overflow_bit : Bool := false
  threshold_value : Nat := 0
deriving DecidableEq

/-- `sorted(set(array))`: the distinct values of `array` in ascending
order. -/
def sorted_values_of (array : List Nat) : List Nat :=
  (array.dedup).insertionSort (· ≤ ·)

/-- `OverflowBitPacking._analyze_overflow_strategy` (lines 470-513).
`math.ceil(math.log2(x))` is modelled by `bit_length (x - 1)`, its exact
value (assuming a correctly rounded `log2`); the float products are
modelled exactly (`int_mul06`, `mul03num`). -/
def analyze_overflow_strategy (s : OverflowState) (array : List Nat) :
    OverflowState :=
  if array.isEmpty then
    { s with has_overflow_bit := false, main_bits := 1, overflow_bits := 0,
             threshold_value := 0 }
  else
    let sorted_values := sorted_values_of array
    if sorted_values.length ≤ 1 then
      { s with has_overflow_bit := false,
               main_bits := calculate_bits_needed (array.map Int.ofNat),
               overflow_bits := 0,
               threshold_value := pyMaxN array }
    else
      let max_bits := bit_length (pyMaxN sorted_values)
      let threshold_bits := Nat.max 3 (int_mul06 max_bits)
      let threshold_value := (1 <<< threshold_bits) - 1
      let overflow_values := sorted_values.filter (fun v => threshold_value < v)
      if 0 < overflow_values.length ∧
          overflow_values.length * 2 ^ 54 < mul03num sorted_values.length then
        { s with has_overflow_bit := true,
                 main_bits := threshold_bits,
                 overflow_bits := if 1 < overflow_values.length then
                     bit_length (overflow_values.length + 1 - 1)
                   else 1,
                 threshold_value := threshold_value }
      else
        { s with has_overflow_bit := false, main_bits := max_bits,
                 overflow_bits := 0, threshold_value := threshold_value }

/-- `OverflowBitPacking._needs_overflow` (lines 515-525). -/
def needs_overflow (s : OverflowState) (value : Nat) : Bool :=
  s.has_overflow_bit && decide (s.threshold_value < value)

/-- The encoding loop of `OverflowBitPacking.compress` (lines 439-451).
The dict `overflow_map` maps each overflow value to its first-seen index
in `overflow_data`, which equals `List.indexOf` on the grown table. -/
def overflow_encode_loop (s : OverflowState) (vals : List Nat)
    (main_values overflow_data : List Nat) : List Nat × List Nat :=
  match vals with
  | [] => (main_values, overflow_data)
  | value :: rest =>
    if needs_overflow s value then
      let od := if value ∈ overflow_data then overflow_data
                else overflow_data ++ [value]
      let encoded_value := (1 <<< s.main_bits) ||| od.indexOf value
      overflow_encode_loop s rest (main_values ++ [encoded_value]) od
    else
      overflow_encode_loop s rest (main_values ++ [value]) overflow_data

/-- The packing loop of `OverflowBitPacking.compress` (lines 460-462),
using the guarded `_write_bits`. -/
def overflow_write_loop (vals : List Nat) (w : Nat) (arr : List Nat)
    (i : Nat) : List Nat :=
  match vals with
  | [] => arr
  | v :: rest =>
    overflow_write_loop rest w (overflow_write_bits arr (i * w) w v) (i + 1)

/-- `OverflowBitPacking.compress` (lines 415-468). -/
def overflow_compress (s : OverflowState) (array : List Nat) :
    OverflowState × Except PyErr (List Nat) :=
  if array.isEmpty then (s, .ok [])
  else
    let s1 := analyze_overflow_strategy
      { s with original_length := array.length } array
    let mvod := overflow_encode_loop s1 array [] []
    let main_values := mvod.1
    let od := mvod.2
    let total_bits_per_element :=
      s1.main_bits + (if s1.has_overflow_bit then 1 else 0)
    let total_bits := main_values.length * total_bits_per_element
    let num_output_ints := (total_bits + 31) / 32
    let compressed := overflow_write_loop main_values total_bits_per_element
      (List.replicate num_output_ints 0) 0
    let full := compressed ++ od
    ({ s1 with overflow_data := od, compressed_data := full }, .ok full)

/-- `OverflowBitPacking.decompress` (lines 527-568): a pure reader. -/
def overflow_decompress (s : OverflowState) (compressed_array : List Nat) :
    OverflowState × Except PyErr (List Nat) :=
  if compressed_array.isEmpty then (s, .ok [])
  else
    let total_bits_per_element :=
      s.main_bits + (if s.has_overflow_bit then 1 else 0)
    let total_bits := s.original_length * total_bits_per_element
    let num_main_ints := (total_bits + 31) / 32
    let main_compressed := compressed_array.take num_main_ints
    let overflow_data := compressed_array.drop num_main_ints
    let overflow_mask := if s.has_overflow_bit then 1 <<< s.main_bits else 0
    let value_mask := (1 <<< s.main_bits) - 1
    (s, .ok ((List.range s.original_length).map fun i =>
      let encoded_value := read_bits main_compressed
        (i * total_bits_per_element) total_bits_per_element
      if s.has_overflow_bit && decide (encoded_value &&& overflow_mask ≠ 0) then
        let overflow_index := encoded_value &&& value_mask
        if overflow_index < overflow_data.length then
          overflow_data.getD overflow_index 0
        else 0
      else
        encoded_value &&& value_mask))

/-- `OverflowBitPacking.get` (lines 570-606). -/
def overflow_get (s : OverflowState) (index : Int) : Except PyErr Nat :=
  if index < 0 ∨ (s.original_length : Int) ≤ index then .error .indexError
  else
    let total_bits_per_element :=
      s.main_bits + (if s.has_overflow_bit then 1 else 0)
    let total_bits := s.original_length * total_bits_per_element
    let num_main_ints := (total_bits + 31) / 32
    let start_bit := index.toNat * total_bits_per_element
    let encoded_value := read_bits (s.compressed_data.take num_main_ints)
      start_bit total_bits_per_element
    let overflow_mask := if s.has_overflow_bit then 1 <<< s.main_bits else 0
    let value_mask := (1 <<< s.main_bits) - 1
    if s.has_overflow_bit && decide (encoded_value &&& overflow_mask ≠ 0) then
      let overflow_index := encoded_value &&& value_mask
      if num_main_ints + overflow_index < s.compressed_data.length then
        .ok (s.compressed_data.getD (num_main_ints + overflow_index) 0)
      else .ok 0
    else .ok (encoded_value &&& value_mask)

/-! ## `ZigZagBitPacking` -/

/-- `ZigZagBitPacking._zigzag_encode` (lines 671-674):
`(value << 1) ^ (value >> 31)` on Python ints (arbitrary precision,
arithmetic shift, two's-complement xor). -/
def zigzag_encode (value : Int) : Int :=
  Int.xor (value <<< (1 : Int)) (value >>> (31 : Int))

/-- `ZigZagBitPacking._zigzag_decode` (lines 676-679):
`(value >> 1) ^ -(value & 1)`. -/
def zigzag_decode (value : Int) : Int :=
  Int.xor (value >>> (1 : Int)) (-(Int.land value 1))

/-- `ZigZagBitPacking.compress` (lines 681-698): zigzag-encode, then
delegate to `SimpleBitPacking.compress`.  The encoded values are always
non-negative (`zigzag_encode_nonneg` below), so they are passed as `Nat`. -/
def zigzag_compress (s : SimpleState) (array : List Int) :
    SimpleState × Except PyErr (List Nat) :=
  if array.isEmpty then (s, .ok [])
  else simple_compress s (array.map fun value => (zigzag_encode value).toNat)

/-- `ZigZagBitPacking.decompress` (lines 700-717). -/
def zigzag_decompress (s : SimpleState) (compressed_array : List Nat) :
    SimpleState × Except PyErr (List Int) :=
  if compressed_array.isEmpty then (s, .ok [])
  else
    let r := simple_decompress s compressed_array
    (r.1, r.2.map fun l => l.map fun v => zigzag_decode (Int.ofNat v))

/-- `ZigZagBitPacking.get` (lines 719-739). -/
def zigzag_get (s : SimpleState) (index : Int) : Except PyErr Int :=
  if index < 0 ∨ (s.original_length : Int) ≤ index then .error .indexError
  else (simple_get s index).map fun v => zigzag_decode (Int.ofNat v)

/-! ## Arithmetic interface to the BitField primitives -/

theorem getD_set_self (l : List Nat) (i x : Nat) (h : i < l.length) :
    (l.set i x).getD i 0 = x := by
  simp [List.getD_eq_getElem?_getD, List.getElem?_set_self', h]

theorem getD_set_ne (l : List Nat) (i j x : Nat) (h : i ≠ j) :
    (l.set i x).getD j 0 = l.getD j 0 := by
  simp [List.getD_eq_getElem?_getD, List.getElem?_set_ne h]

/-- Bitwise or of values occupying disjoint bit ranges is addition. -/
theorem lor_mul_pow (a u k : Nat) (h : a < 2 ^ k) :
    a ||| u * 2 ^ k = u * 2 ^ k + a := by
  have h1 := Nat.mul_add_lt_is_or (i := k) h u
  rw [Nat.mul_comm (2 ^ k) u] at h1
  rw [Nat.lor_comm]
  omega

theorem read_bits_eq (array : List Nat) (start num : Nat) (h : num ≠ 0) :
    read_bits array start num =
      if array.length ≤ start / 32 then 0
      else if start % 32 + num ≤ 32 then
        array.getD (start / 32) 0 / 2 ^ (start % 32) % 2 ^ num
      else
        array.getD (start / 32) 0 / 2 ^ (start % 32) % 2 ^ (32 - start % 32) +
          (if start / 32 + 1 < array.length then
            array.getD (start / 32 + 1) 0 % 2 ^ (num - (32 - start % 32)) *
              2 ^ (32 - start % 32)
          else 0) := by
  rw [read_bits]
  rw [if_neg h]
  by_cases h1 : array.length ≤ start / 32
  · rw [if_pos h1, if_pos h1]
  · rw [if_neg h1, if_neg h1]
    by_cases h2 : start % 32 + num ≤ 32
    · rw [if_pos h2, if_pos h2]
      rw [Nat.one_shiftLeft, Nat.shiftRight_eq_div_pow,
        Nat.and_pow_two_sub_one_eq_mod]
    · rw [if_neg h2, if_neg h2]
      have hfp : (array.getD (start / 32) 0 >>> (start % 32)) &&&
          ((1 <<< (32 - start % 32)) - 1) =
          array.getD (start / 32) 0 / 2 ^ (start % 32) % 2 ^ (32 - start % 32) := by
        rw [Nat.one_shiftLeft, Nat.shiftRight_eq_div_pow,
          Nat.and_pow_two_sub_one_eq_mod]
      by_cases h3 : start / 32 + 1 < array.length
      · rw [if_pos h3, if_pos h3]
        rw [hfp, Nat.one_shiftLeft, Nat.and_pow_two_sub_one_eq_mod,
          Nat.shiftLeft_eq]
        have := lor_mul_pow
          (array.getD (start / 32) 0 / 2 ^ (start % 32) % 2 ^ (32 - start % 32))
          (array.getD (start / 32 + 1) 0 % 2 ^ (num - (32 - start % 32)))
          (32 - start % 32) (Nat.mod_lt _ (by positivity))
        omega
      · rw [if_neg h3, if_neg h3, hfp]
        omega

theorem write_bits_none (array : List Nat) (start num v : Nat) (h : num ≠ 0)
    (hlen : array.length ≤ start / 32) :
    write_bits array start num v = none := by
  rw [write_bits, if_neg h, if_neg (by omega : ¬ start / 32 < array.length)]

theorem write_bits_eq_within (array : List Nat) (start num v : Nat)
    (h : num ≠ 0) (hk : start / 32 < array.length)
    (hA : start % 32 + num ≤ 32) :
    write_bits array start num v = some (array.set (start / 32)
      (array.getD (start / 32) 0 ||| v % 2 ^ num * 2 ^ (start % 32))) := by
  rw [write_bits, if_neg h, if_pos hk, if_pos hA, Nat.one_shiftLeft,
    Nat.and_pow_two_sub_one_eq_mod, Nat.shiftLeft_eq]

theorem write_bits_eq_straddle (array : List Nat) (start num v : Nat)
    (h : num ≠ 0) (hk : start / 32 < array.length)
    (hB : ¬ start % 32 + num ≤ 32) (hk1 : start / 32 + 1 < array.length) :
    write_bits array start num v =
      some ((array.set (start / 32)
        (array.getD (start / 32) 0 |||
          v % 2 ^ num % 2 ^ (32 - start % 32) * 2 ^ (start % 32))).set
        (start / 32 + 1)
        ((array.set (start / 32)
          (array.getD (start / 32) 0 |||
            v % 2 ^ num % 2 ^ (32 - start % 32) * 2 ^ (start % 32))).getD
            (start / 32 + 1) 0 |||
          v % 2 ^ num / 2 ^ (32 - start % 32))) := by
  rw [write_bits, if_neg h, if_pos hk, if_neg hB]
  have hlen : ((array.set (start / 32)
      (array.getD (start / 32) 0 |||
        ((v &&& (1 <<< num) - 1) &&& (1 <<< (32 - start % 32)) - 1) <<<
          (start % 32)))).length = array.length := by simp
  rw [if_pos (by rw [hlen]; exact hk1)]
  rw [Nat.one_shiftLeft, Nat.one_shiftLeft, Nat.and_pow_two_sub_one_eq_mod,
    Nat.and_pow_two_sub_one_eq_mod, Nat.shiftLeft_eq,
    Nat.shiftRight_eq_div_pow]

theorem write_bits_eq_straddle_cut (array : List Nat) (start num v : Nat)
    (h : num ≠ 0) (hk : start / 32 < array.length)
    (hB : ¬ start % 32 + num ≤ 32) (hk1 : ¬ start / 32 + 1 < array.length) :
    write_bits array start num v =
      some (array.set (start / 32)
        (array.getD (start / 32) 0 |||
          v % 2 ^ num % 2 ^ (32 - start % 32) * 2 ^ (start % 32))) := by
  rw [write_bits, if_neg h, if_pos hk, if_neg hB]
  have hlen : ((array.set (start / 32)
      (array.getD (start / 32) 0 |||
        ((v &&& (1 <<< num) - 1) &&& (1 <<< (32 - start % 32)) - 1) <<<
          (start % 32)))).length = array.length := by simp
  rw [if_neg (by rw [hlen]; exact hk1)]
  rw [Nat.one_shiftLeft, Nat.one_shiftLeft, Nat.and_pow_two_sub_one_eq_mod,
    Nat.and_pow_two_sub_one_eq_mod, Nat.shiftLeft_eq]

/-- Adding bits at or above position `32 * k + e` to word `k` does not
change any read that lies entirely below bit position `32 * k + e`. -/
theorem read_preserved_add (ws : List Nat) (k δ e s' n' : Nat)
    (he : e < 32) (hn' : n' ≠ 0) (hle : s' + n' ≤ 32 * k + e) :
    read_bits (ws.set k (ws.getD k 0 + δ * 2 ^ e)) s' n' =
      read_bits ws s' n' := by
  rw [read_bits_eq _ _ _ hn', read_bits_eq _ _ _ hn', List.length_set]
  by_cases h1 : ws.length ≤ s' / 32
  · rw [if_pos h1, if_pos h1]
  · rw [if_neg h1, if_neg h1]
    have hs : 32 * (s' / 32) + s' % 32 = s' := by omega
    by_cases h2 : s' % 32 + n' ≤ 32
    · rw [if_pos h2, if_pos h2]
      by_cases hkk : s' / 32 = k
      · subst hkk
        rw [getD_set_self _ _ _ (by omega)]
        have hoff : s' % 32 + n' ≤ e := by omega
        have hδ : δ * 2 ^ e =
            δ * 2 ^ (e - (s' % 32) - n') * 2 ^ n' * 2 ^ (s' % 32) := by
          rw [Nat.mul_assoc, Nat.mul_assoc, ← pow_add, ← pow_add]
          congr 2
          omega
        rw [hδ]
        rw [Nat.add_mul_div_right _ _ (by positivity : 0 < 2 ^ (s' % 32))]
        rw [Nat.add_mul_mod_self_right]
      · rw [getD_set_ne _ _ _ _ (fun hh => hkk hh.symm)]
    · rw [if_neg h2, if_neg h2]
      have hkk : s' / 32 ≠ k := by
        intro hh
        omega
      rw [getD_set_ne _ _ _ _ (fun hh => hkk hh.symm)]
      by_cases h3 : s' / 32 + 1 < ws.length
      · rw [if_pos h3, if_pos h3]
        by_cases hkk1 : s' / 32 + 1 = k
        · rw [← hkk1]
          rw [getD_set_self _ _ _ (by omega)]
          have hbis : n' - (32 - s' % 32) ≤ e := by omega
          have hδ : δ * 2 ^ e =
              δ * 2 ^ (e - (n' - (32 - s' % 32))) * 2 ^ (n' - (32 - s' % 32)) := by
            rw [Nat.mul_assoc, ← pow_add]
            congr 2
            omega
          rw [hδ, Nat.add_mul_mod_self_right]
        · rw [getD_set_ne _ _ _ _ (fun hh => hkk1 hh.symm)]
      · rw [if_neg h3, if_neg h3]

/-- All bits of `ws` lie strictly below virtual position `f`
(word `k` occupies positions `32 * k` upward, with carries allowed to
spill past `32 * (k + 1)` when a wide field straddles). -/
def WordsBound (f : Nat) (ws : List Nat) : Prop :=
  ∀ k, ws.getD k 0 < 2 ^ (f - 32 * k)

theorem wordsBound_mono {f g : Nat} {ws : List Nat} (h : WordsBound f ws)
    (hfg : f ≤ g) : WordsBound g ws := by
  intro k
  exact lt_of_lt_of_le (h k)
    (Nat.pow_le_pow_right (by norm_num) (by omega))

theorem wordsBound_replicate (f W : Nat) : WordsBound f (List.replicate W 0) := by
  intro k
  have : (List.replicate W (0 : Nat)).getD k 0 = 0 := by
    by_cases h : k < W
    · simp [List.getD_eq_getElem?_getD, List.getElem?_replicate, h]
    · simp [List.getD_eq_getElem?_getD, List.getElem?_replicate, h]
  rw [this]
  positivity

/-- Central correctness property of `SimpleBitPacking._write_bits`: under
the frontier invariant, the write succeeds, preserves length, extends the
frontier, reads back the masked value, and leaves all lower reads
unchanged. -/
theorem write_bits_spec (ws : List Nat) (f start num v : Nat)
    (hnum : num ≠ 0) (hf : f ≤ start) (hbound : WordsBound f ws)
    (hcap : start + num ≤ 32 * ws.length) :
    ∃ ws', write_bits ws start num v = some ws' ∧
      ws'.length = ws.length ∧
      WordsBound (start + num) ws' ∧
      read_bits ws' start num = v % 2 ^ num ∧
      (∀ s' n', n' ≠ 0 → s' + n' ≤ start →
        read_bits ws' s' n' = read_bits ws s' n') := by
  have hnum1 : 1 ≤ num := Nat.one_le_iff_ne_zero.mpr hnum
  have hk : start / 32 < ws.length := by omega
  have hoff32 : start % 32 < 32 := Nat.mod_lt _ (by norm_num)
  have hold : ws.getD (start / 32) 0 < 2 ^ (start % 32) := by
    refine lt_of_lt_of_le (hbound (start / 32))
      (Nat.pow_le_pow_right (by norm_num) ?_)
    omega
  have humod : v % 2 ^ num < 2 ^ num := Nat.mod_lt _ (by positivity)
  by_cases hA : start % 32 + num ≤ 32
  · -- the field fits inside one word
    refine ⟨_, write_bits_eq_within ws start num v hnum hk hA, ?_, ?_, ?_, ?_⟩
    · simp
    · intro k
      by_cases hkk : k = start / 32
      · subst hkk
        rw [getD_set_self _ _ _ hk]
        rw [lor_mul_pow _ _ _ hold]
        have h1 : 2 ^ (start % 32 + num) ≤ 2 ^ (start + num - 32 * (start / 32)) :=
          Nat.pow_le_pow_right (by norm_num) (by omega)
        have h2 : v % 2 ^ num * 2 ^ (start % 32) + ws.getD (start / 32) 0 <
            2 ^ (start % 32 + num) := by
          rw [pow_add, Nat.mul_comm (2 ^ (start % 32)) (2 ^ num)]
          calc v % 2 ^ num * 2 ^ (start % 32) + ws.getD (start / 32) 0
              < v % 2 ^ num * 2 ^ (start % 32) + 2 ^ (start % 32) := by omega
          _ = (v % 2 ^ num + 1) * 2 ^ (start % 32) := by ring
          _ ≤ 2 ^ num * 2 ^ (start % 32) :=
              Nat.mul_le_mul_right _ (by omega)
        omega
      · rw [getD_set_ne _ _ _ _ (fun hh => hkk hh.symm)]
        exact lt_of_lt_of_le (hbound k)
          (Nat.pow_le_pow_right (by norm_num) (by omega))
    · rw [read_bits_eq _ _ _ hnum]
      rw [List.length_set]
      rw [if_neg (by omega), if_pos hA]
      rw [getD_set_self _ _ _ hk]
      rw [lor_mul_pow _ _ _ hold]
      rw [Nat.add_comm]
      rw [Nat.add_mul_div_right _ _ (by positivity : 0 < 2 ^ (start % 32))]
      rw [Nat.div_eq_of_lt hold]
      rw [Nat.zero_add]
      exact Nat.mod_eq_of_lt humod
    · intro s' n' hn' hle
      have hrw : ws.set (start / 32)
          (ws.getD (start / 32) 0 ||| v % 2 ^ num * 2 ^ (start % 32)) =
          ws.set (start / 32)
          (ws.getD (start / 32) 0 + v % 2 ^ num * 2 ^ (start % 32)) := by
        rw [lor_mul_pow _ _ _ hold]
        rw [Nat.add_comm (v % 2 ^ num * 2 ^ (start % 32)) (ws.getD (start / 32) 0)]
      rw [hrw]
      exact read_preserved_add ws (start / 32) (v % 2 ^ num) (start % 32)
        s' n' hoff32 hn' (by omega)
  · -- the field straddles two words
    have hk1 : start / 32 + 1 < ws.length := by omega
    have h01 : ws.getD (start / 32 + 1) 0 = 0 := by
      have hb := hbound (start / 32 + 1)
      have hexp : f - 32 * (start / 32 + 1) = 0 := by omega
      rw [hexp] at hb
      omega
    have hulo : v % 2 ^ num % 2 ^ (32 - start % 32) < 2 ^ (32 - start % 32) :=
      Nat.mod_lt _ (by positivity)
    have huhi : v % 2 ^ num / 2 ^ (32 - start % 32) <
        2 ^ (num - (32 - start % 32)) := by
      rw [Nat.div_lt_iff_lt_mul (by positivity : 0 < 2 ^ (32 - start % 32))]
      calc v % 2 ^ num < 2 ^ num := humod
      _ = 2 ^ (num - (32 - start % 32)) * 2 ^ (32 - start % 32) := by
          rw [← pow_add]; congr 1; omega
    have hgd1 : (ws.set (start / 32)
        (ws.getD (start / 32) 0 |||
          v % 2 ^ num % 2 ^ (32 - start % 32) * 2 ^ (start % 32))).getD
        (start / 32 + 1) 0 = 0 := by
      rw [getD_set_ne _ _ _ _ (by omega)]
      exact h01
    have heq : write_bits ws start num v = some ((ws.set (start / 32)
        (ws.getD (start / 32) 0 +
          v % 2 ^ num % 2 ^ (32 - start % 32) * 2 ^ (start % 32))).set
        (start / 32 + 1) (v % 2 ^ num / 2 ^ (32 - start % 32))) := by
      rw [write_bits_eq_straddle ws start num v hnum hk hA hk1]
      rw [hgd1, Nat.zero_or]
      rw [lor_mul_pow _ _ _ hold]
      rw [Nat.add_comm (v % 2 ^ num % 2 ^ (32 - start % 32) * 2 ^ (start % 32))
        (ws.getD (start / 32) 0)]
    have hlolt : ws.getD (start / 32) 0 +
        v % 2 ^ num % 2 ^ (32 - start % 32) * 2 ^ (start % 32) < 2 ^ 32 := by
      have h2 : 2 ^ (32 - start % 32) * 2 ^ (start % 32) = 2 ^ 32 := by
        rw [← pow_add]; congr 1; omega
      calc ws.getD (start / 32) 0 +
          v % 2 ^ num % 2 ^ (32 - start % 32) * 2 ^ (start % 32)
          < 2 ^ (start % 32) +
            v % 2 ^ num % 2 ^ (32 - start % 32) * 2 ^ (start % 32) := by omega
      _ = (v % 2 ^ num % 2 ^ (32 - start % 32) + 1) * 2 ^ (start % 32) := by ring
      _ ≤ 2 ^ (32 - start % 32) * 2 ^ (start % 32) :=
          Nat.mul_le_mul_right _ (by omega)
      _ = 2 ^ 32 := h2
    refine ⟨_, heq, ?_, ?_, ?_, ?_⟩
    · simp
    · intro k
      by_cases hkk1 : k = start / 32 + 1
      · subst hkk1
        rw [getD_set_self _ _ _ (by simpa using hk1)]
        refine lt_of_lt_of_le huhi (Nat.pow_le_pow_right (by norm_num) ?_)
        omega
      · rw [getD_set_ne _ _ _ _ (fun hh => hkk1 hh.symm)]
        by_cases hkk : k = start / 32
        · subst hkk
          rw [getD_set_self _ _ _ hk]
          refine lt_of_lt_of_le hlolt (Nat.pow_le_pow_right (by norm_num) ?_)
          omega
        · rw [getD_set_ne _ _ _ _ (fun hh => hkk hh.symm)]
          exact lt_of_lt_of_le (hbound k)
            (Nat.pow_le_pow_right (by norm_num) (by omega))
    · rw [read_bits_eq _ _ _ hnum]
      have hlen2 : ((ws.set (start / 32)
          (ws.getD (start / 32) 0 +
            v % 2 ^ num % 2 ^ (32 - start % 32) * 2 ^ (start % 32))).set
          (start / 32 + 1)
          (v % 2 ^ num / 2 ^ (32 - start % 32))).length = ws.length := by simp
      rw [hlen2]
      rw [if_neg (by omega), if_neg hA, if_pos hk1]
      rw [getD_set_self _ _ _ (by simpa using hk1)]
      rw [getD_set_ne _ _ _ _ (by omega)]
      rw [getD_set_self _ _ _ hk]
      rw [Nat.add_mul_div_right _ _ (by positivity : 0 < 2 ^ (start % 32))]
      rw [Nat.div_eq_of_lt hold, Nat.zero_add]
      rw [Nat.mod_mod_of_dvd _ (pow_dvd_pow 2 (by omega))]
      rw [Nat.mod_eq_of_lt huhi]
      rw [Nat.mul_comm (v % 2 ^ num / 2 ^ (32 - start % 32))
        (2 ^ (32 - start % 32))]
      exact Nat.mod_add_div (v % 2 ^ num) (2 ^ (32 - start % 32))
    · intro s' n' hn' hle
      have hle2 : s' + n' ≤ 32 * (start / 32 + 1) + 0 := by omega
      have hset2 : (ws.set (start / 32)
          (ws.getD (start / 32) 0 +
            v % 2 ^ num % 2 ^ (32 - start % 32) * 2 ^ (start % 32))).set
          (start / 32 + 1) (v % 2 ^ num / 2 ^ (32 - start % 32)) =
          (ws.set (start / 32)
          (ws.getD (start / 32) 0 +
            v % 2 ^ num % 2 ^ (32 - start % 32) * 2 ^ (start % 32))).set
          (start / 32 + 1)
          ((ws.set (start / 32)
            (ws.getD (start / 32) 0 +
              v % 2 ^ num % 2 ^ (32 - start % 32) * 2 ^ (start % 32))).getD
            (start / 32 + 1) 0 +
            v % 2 ^ num / 2 ^ (32 - start % 32) * 2 ^ 0) := by
        rw [getD_set_ne _ _ _ _ (by omega), h01]
        norm_num
      rw [hset2]
      rw [read_preserved_add _ (start / 32 + 1) _ 0 s' n' (by norm_num) hn' hle2]
      exact read_preserved_add ws (start / 32) _ (start % 32) s' n' hoff32 hn'
        (by omega)

/-- Correctness of the packing loop of `SimpleBitPacking.compress`:
writing fields of width `b` back to back succeeds and every field reads
back (masked to `b` bits). -/
theorem simple_write_loop_spec (b : Nat) (hb : b ≠ 0) (vals : List Nat) :
    ∀ (i0 : Nat) (ws : List Nat), WordsBound (i0 * b) ws →
    (i0 + vals.length) * b ≤ 32 * ws.length →
    ∃ ws', simple_write_loop vals b ws i0 = some ws' ∧
      ws'.length = ws.length ∧
      WordsBound ((i0 + vals.length) * b) ws' ∧
      (∀ j, j < vals.length →
        read_bits ws' ((i0 + j) * b) b = vals.getD j 0 % 2 ^ b) ∧
      (∀ s' n', n' ≠ 0 → s' + n' ≤ i0 * b →
        read_bits ws' s' n' = read_bits ws s' n') := by
  induction vals with
  | nil =>
    intro i0 ws hbound hcap
    exact ⟨ws, rfl, rfl, by simpa using hbound, by simp, fun _ _ _ _ => rfl⟩
  | cons v rest ih =>
    intro i0 ws hbound hcap
    have hcap1 : i0 * b + b ≤ 32 * ws.length := by
      have h1 : (i0 + 1) * b ≤ (i0 + (v :: rest).length) * b :=
        Nat.mul_le_mul_right b (by simp only [List.length_cons]; omega)
      have h2 : (i0 + 1) * b = i0 * b + b := by ring
      omega
    obtain ⟨ws1, hw, hlen1, hbound1, hread1, hpres1⟩ :=
      write_bits_spec ws (i0 * b) (i0 * b) b v hb le_rfl hbound hcap1
    have hbound1' : WordsBound ((i0 + 1) * b) ws1 := by
      have h2 : (i0 + 1) * b = i0 * b + b := by ring
      rw [h2]
      exact hbound1
    have hcap2 : (i0 + 1 + rest.length) * b ≤ 32 * ws1.length := by
      rw [hlen1]
      have h3 : i0 + 1 + rest.length = i0 + (v :: rest).length := by
        simp only [List.length_cons]
        omega
      rw [h3]
      exact hcap
    obtain ⟨ws', hloop, hlen', hbound', hreads', hpres'⟩ :=
      ih (i0 + 1) ws1 hbound1' hcap2
    refine ⟨ws', ?_, hlen'.trans hlen1, ?_, ?_, ?_⟩
    · rw [simple_write_loop, hw]
      exact hloop
    · have h3 : i0 + 1 + rest.length = i0 + (v :: rest).length := by
        simp
        omega
      rw [← h3]
      exact hbound'
    · intro j hj
      cases j with
      | zero =>
        have hp : read_bits ws' (i0 * b) b = read_bits ws1 (i0 * b) b := by
          apply hpres' (i0 * b) b hb
          have : (i0 + 1) * b = i0 * b + b := by ring
          omega
        rw [Nat.add_zero]
        rw [hp, hread1]
        rfl
      | succ j' =>
        have hj' : j' < rest.length := by simpa using hj
        have h4 : i0 + (j' + 1) = i0 + 1 + j' := by omega
        rw [h4]
        have := hreads' j' hj'
        rw [this]
        rfl
    · intro s' n' hn' hle
      have h5 : s' + n' ≤ (i0 + 1) * b := by
        have : i0 * b ≤ (i0 + 1) * b := Nat.mul_le_mul_right b (by omega)
        omega
      rw [hpres' s' n' hn' h5]
      exact hpres1 s' n' hn' hle

/-! ## Facts about `_calculate_bits_needed` on non-negative input -/

theorem foldl_max_map_ofNat (l : List Nat) (a : Nat) :
    (l.map Int.ofNat).foldl max (Int.ofNat a) = Int.ofNat (l.foldl max a) := by
  induction l generalizing a with
  | nil => simp
  | cons y ys ih =>
    simp only [List.map_cons, List.foldl_cons]
    rw [← ih (max a y)]
    congr 1
    exact (Nat.cast_max a y).symm

theorem pyMax_map_ofNat (l : List Nat) :
    pyMax (l.map Int.ofNat) = Int.ofNat (pyMaxN l) := by
  cases l with
  | nil => rfl
  | cons y ys =>
    simp only [List.map_cons, pyMax, pyMaxN]
    exact foldl_max_map_ofNat ys y

theorem pyMin_map_ofNat_nonneg (l : List Nat) (hl : l ≠ []) :
    ¬ pyMin (l.map Int.ofNat) < 0 := by
  have hne : l.map Int.ofNat ≠ [] := by
    simpa using hl
  have hmem := pyMin_mem hne
  obtain ⟨x, _, hx⟩ := List.mem_map.mp hmem
  have h2 : (0 : Int) ≤ Int.ofNat x := Int.ofNat_nonneg x
  rw [hx] at h2
  omega

/-- On a non-empty list of non-negative values, `_calculate_bits_needed`
is the bit length of the maximum (with `max = 0 ↦ 1`). -/
theorem calculate_bits_needed_ofNat (l : List Nat) (hl : l ≠ []) :
    calculate_bits_needed (l.map Int.ofNat) =
      if 0 < pyMaxN l then bit_length (pyMaxN l) else 1 := by
  have h0 : (l.map Int.ofNat).isEmpty = false := by
    cases l with
    | nil => exact absurd rfl hl
    | cons y ys => rfl
  rw [calculate_bits_needed]
  simp only [h0, Bool.false_eq_true, if_false]
  simp only [if_neg (pyMin_map_ofNat_nonneg l hl)]
  rw [pyMax_map_ofNat]
  simp only [Int.ofNat_eq_natCast]
  by_cases h : 0 < pyMaxN l
  · rw [if_pos (show (pyMaxN l : Int) > 0 by exact_mod_cast h), if_pos h]
    simp
  · rw [if_neg (show ¬ (pyMaxN l : Int) > 0 by exact_mod_cast h), if_neg h]

theorem calculate_bits_needed_ofNat_pos (l : List Nat) (hl : l ≠ []) :
    calculate_bits_needed (l.map Int.ofNat) ≠ 0 := by
  rw [calculate_bits_needed_ofNat l hl]
  by_cases h : 0 < pyMaxN l
  · rw [if_pos h]
    intro hc
    have := lt_two_pow_bit_length (pyMaxN l)
    rw [hc] at this
    omega
  · rw [if_neg h]
    omega

theorem mem_lt_two_pow_calculate_bits (l : List Nat) (hl : l ≠ []) {x : Nat}
    (hx : x ∈ l) : x < 2 ^ calculate_bits_needed (l.map Int.ofNat) := by
  rw [calculate_bits_needed_ofNat l hl]
  by_cases h : 0 < pyMaxN l
  · rw [if_pos h]
    exact lt_of_le_of_lt (le_pyMaxN hx) (lt_two_pow_bit_length _)
  · rw [if_neg h]
    have := le_pyMaxN hx
    omega

/-! ## Correctness of `SimpleBitPacking` -/

theorem simple_compress_ok (s : SimpleState) (array : List Nat)
    (harr : array ≠ []) :
    ∃ ws, simple_compress s array =
      ({ s with original_length := array.length,
                bits_per_element := calculate_bits_needed (array.map Int.ofNat),
                compressed_data := ws }, .ok ws) ∧
      ws.length = (array.length * calculate_bits_needed (array.map Int.ofNat)
        + 31) / 32 ∧
      ws ≠ [] ∧
      (∀ j, j < array.length →
        read_bits ws (j * calculate_bits_needed (array.map Int.ofNat))
          (calculate_bits_needed (array.map Int.ofNat)) = array.getD j 0) := by
  have hb : calculate_bits_needed (array.map Int.ofNat) ≠ 0 :=
    calculate_bits_needed_ofNat_pos array harr
  set b := calculate_bits_needed (array.map Int.ofNat) with hbdef
  set n := array.length with hndef
  set W := (n * b + 31) / 32 with hWdef
  have hn : n ≠ 0 := by
    intro hc
    rw [hndef] at hc
    exact harr (List.length_eq_zero.mp hc)
  have hcap : (0 + array.length) * b ≤ 32 * (List.replicate W 0).length := by
    rw [List.length_replicate, Nat.zero_add]
    have : n * b ≤ 32 * W := by omega
    exact this
  have hbound0 : WordsBound (0 * b) (List.replicate W 0) := by
    rw [Nat.zero_mul]
    exact wordsBound_replicate 0 W
  obtain ⟨ws, hloop, hlen, _, hreads, _⟩ :=
    simple_write_loop_spec b hb array 0 (List.replicate W 0) hbound0 hcap
  refine ⟨ws, ?_, by rw [hlen, List.length_replicate], ?_, ?_⟩
  · rw [simple_compress]
    rw [if_neg (by simpa [List.isEmpty_iff] using harr)]
    simp only [← hbdef, ← hndef, ← hWdef]
    rw [hloop]
  · have : ws.length ≠ 0 := by
      rw [hlen, List.length_replicate]
      have h1 : 1 ≤ n * b := Nat.one_le_iff_ne_zero.mpr (by
        intro hc
        rcases Nat.mul_eq_zero.mp hc with hc | hc
        · exact hn hc
        · exact hb hc)
      omega
    intro hc
    rw [hc] at this
    exact this rfl
  · intro j hj
    have := hreads j hj
    rw [Nat.zero_add] at this
    rw [this]
    apply Nat.mod_eq_of_lt
    apply mem_lt_two_pow_calculate_bits array harr
    have hj2 : j < array.length := hj
    rw [List.getD_eq_getElem?_getD, List.getElem?_eq_getElem hj2]
    simp only [Option.getD_some]
    exact List.getElem_mem hj2

theorem simple_compress_empty (s : SimpleState) :
    simple_compress s [] = (s, .ok []) := rfl

theorem simple_decompress_spec (s s' : SimpleState) (array buf : List Nat)
    (h : simple_compress s array = (s', .ok buf)) :
    simple_decompress s' buf = (s', .ok array) := by
  by_cases harr : array = []
  · subst harr
    rw [simple_compress_empty] at h
    obtain ⟨rfl, rfl⟩ : s = s' ∧ ([] : List Nat) = buf := by
      have h1 := congrArg Prod.fst h
      have h2 := congrArg Prod.snd h
      simp at h1 h2
      exact ⟨h1, h2.symm⟩
    rfl
  · obtain ⟨ws, hc, hlen, hne, hreads⟩ := simple_compress_ok s array harr
    rw [h] at hc
    have hs' : s' = { s with
        original_length := array.length
        bits_per_element := calculate_bits_needed (array.map Int.ofNat)
        compressed_data := ws } := by
      have := congrArg Prod.fst hc
      simpa using this
    have hbuf : buf = ws := by
      have := congrArg Prod.snd hc
      simpa using this
    subst hbuf
    rw [simple_decompress]
    rw [if_neg (by simpa [List.isEmpty_iff] using hne)]
    have holen : s'.original_length = array.length := by rw [hs']
    have hbits : s'.bits_per_element =
        calculate_bits_needed (array.map Int.ofNat) := by rw [hs']
    rw [holen, hbits]
    refine congrArg _ (congrArg _ ?_)
    apply List.ext_getElem
    · simp
    · intro i h1 h2
      simp only [List.getElem_map, List.getElem_range]
      have hi : i < array.length := by simpa using h2
      rw [hreads i hi]
      rw [List.getD_eq_getElem?_getD, List.getElem?_eq_getElem hi]
      simp

theorem simple_get_spec (s s' : SimpleState) (array buf : List Nat)
    (h : simple_compress s array = (s', .ok buf)) (i : Nat)
    (hi : i < array.length) :
    simple_get s' (i : Int) = .ok (array.getD i 0) := by
  have harr : array ≠ [] := by
    intro hc
    subst hc
    simp at hi
  obtain ⟨ws, hc, hlen, hne, hreads⟩ := simple_compress_ok s array harr
  rw [h] at hc
  have hs' : s' = { s with
      original_length := array.length
      bits_per_element := calculate_bits_needed (array.map Int.ofNat)
      compressed_data := ws } := by
    have := congrArg Prod.fst hc
    simpa using this
  rw [simple_get]
  rw [if_neg (by
    rw [hs']
    simp only [not_or, not_lt, not_le]
    constructor
    · exact Int.natCast_nonneg i
    · exact_mod_cast hi)]
  rw [hs']
  simp only [Int.toNat_natCast]
  rw [hreads i hi]

/-! ## Correctness of `AlignedBitPacking` -/

theorem succ_div_mod_of_mod_succ_eq (i epi : Nat) (h : i % epi + 1 = epi) :
    (i + 1) / epi = i / epi + 1 ∧ (i + 1) % epi = 0 := by
  have h0 : 0 < epi := by omega
  have hd := Nat.div_add_mod i epi
  have h1 : i + 1 = epi * (i / epi + 1) := by
    rw [Nat.mul_add, Nat.mul_one]
    omega
  constructor
  · rw [h1, Nat.mul_div_cancel_left _ h0]
  · rw [h1, Nat.mul_mod_right]

theorem succ_div_mod_of_mod_succ_lt (i epi : Nat) (h0 : 0 < epi)
    (h : i % epi + 1 < epi) :
    (i + 1) / epi = i / epi ∧ (i + 1) % epi = i % epi + 1 := by
  have hd := Nat.div_add_mod i epi
  have h1 : i + 1 = epi * (i / epi) + (i % epi + 1) := by omega
  constructor
  · rw [h1, Nat.mul_add_div h0, Nat.div_eq_of_lt h, Nat.add_zero]
  · rw [h1, Nat.mul_add_mod, Nat.mod_eq_of_lt (by omega)]

/-- The aligned layout: logical element `i` starts at bit
`32 * (i / epi) + (i % epi) * b` of the packed words. -/
def startA (epi b i : Nat) : Nat := 32 * (i / epi) + (i % epi) * b

theorem startA_mod_lt (epi b i : Nat) (hb : b ≠ 0) (hepi1 : 1 ≤ epi)
    (hepib : epi * b ≤ 32) :
    (i % epi) * b + b ≤ 32 := by
  have h0 : 0 < epi := hepi1
  have hr : i % epi < epi := Nat.mod_lt _ h0
  have h1 : (i % epi) * b + b = (i % epi + 1) * b := by ring
  have h2 : (i % epi + 1) * b ≤ epi * b := Nat.mul_le_mul_right b (by omega)
  linarith

theorem startA_div (epi b i : Nat) (hb : b ≠ 0) (hepi1 : 1 ≤ epi)
    (hepib : epi * b ≤ 32) :
    startA epi b i / 32 = i / epi ∧ startA epi b i % 32 = (i % epi) * b := by
  have h1 := startA_mod_lt epi b i hb hepi1 hepib
  have h2 : (i % epi) * b < 32 := by omega
  rw [startA]
  constructor
  · rw [Nat.mul_add_div (by norm_num), Nat.div_eq_of_lt h2, Nat.add_zero]
  · rw [Nat.mul_add_mod, Nat.mod_eq_of_lt h2]

theorem startA_succ (epi b i : Nat) (hb : b ≠ 0) (hepi1 : 1 ≤ epi)
    (hepib : epi * b ≤ 32) :
    startA epi b i + b ≤ startA epi b (i + 1) := by
  have h0 : 0 < epi := hepi1
  have hr : i % epi < epi := Nat.mod_lt _ h0
  by_cases hc : i % epi + 1 = epi
  · obtain ⟨hdiv, hmod⟩ := succ_div_mod_of_mod_succ_eq i epi hc
    rw [startA, startA, hdiv, hmod]
    have h1 : (i % epi) * b + b = (i % epi + 1) * b := by ring
    have h2 : (i % epi + 1) * b = epi * b := by rw [hc]
    have h3 : 32 * (i / epi + 1) = 32 * (i / epi) + 32 := by ring
    linarith
  · obtain ⟨hdiv, hmod⟩ := succ_div_mod_of_mod_succ_lt i epi h0 (by omega)
    rw [startA, startA, hdiv, hmod]
    have h1 : (i % epi + 1) * b = (i % epi) * b + b := by ring
    linarith

theorem startA_capacity (epi b i W : Nat) (hb : b ≠ 0) (hepi1 : 1 ≤ epi)
    (hepib : epi * b ≤ 32) (hiW : i / epi < W) :
    startA epi b i + b ≤ 32 * W := by
  have h1 := startA_mod_lt epi b i hb hepi1 hepib
  rw [startA]
  have h2 : 32 * (i / epi) + 32 ≤ 32 * W := by omega
  linarith

/-- One aligned store `compressed[output_index] |= value << bit_offset`
is exactly a `_write_bits` call at the slot's bit position. -/
theorem aligned_update_eq_write (arr : List Nat) (v b epi i : Nat)
    (hb : b ≠ 0) (hepi1 : 1 ≤ epi) (hepib : epi * b ≤ 32) (hv : v < 2 ^ b)
    (hk : i / epi < arr.length) :
    write_bits arr (startA epi b i) b v =
      some (arr.set (i / epi) (arr.getD (i / epi) 0 ||| (v <<< ((i % epi) * b)))) := by
  obtain ⟨hdiv, hmod⟩ := startA_div epi b i hb hepi1 hepib
  have h1 := startA_mod_lt epi b i hb hepi1 hepib
  have hk2 : startA epi b i / 32 < arr.length := by
    rw [hdiv]
    exact hk
  have hA : startA epi b i % 32 + b ≤ 32 := by
    rw [hmod]
    linarith
  rw [write_bits_eq_within arr (startA epi b i) b v hb hk2 hA]
  rw [hdiv, hmod, Nat.mod_eq_of_lt hv, Nat.shiftLeft_eq]

theorem getD_map_ofNat (l : List Nat) (i : Nat) :
    (l.map Int.ofNat).getD i 0 = Int.ofNat (l.getD i 0) := by
  induction l generalizing i with
  | nil => simp
  | cons y ys ih =>
    cases i with
    | zero => simp [List.getD_cons_zero]
    | succ n => simpa [List.getD_cons_succ] using ih n

theorem aligned_pack_loop_spec (b epi : Nat) (hb : b ≠ 0) (hepi1 : 1 ≤ epi)
    (hepib : epi * b ≤ 32) (shifted : List Nat) :
    ∀ i0 ws, (∀ x ∈ shifted, x < 2 ^ b) →
      WordsBound (startA epi b i0) ws →
      (∀ j, j < shifted.length → (i0 + j) / epi < ws.length) →
      (aligned_pack_loop shifted b epi ws i0).length = ws.length ∧
      (∀ j, j < shifted.length →
        read_bits (aligned_pack_loop shifted b epi ws i0)
          (startA epi b (i0 + j)) b = shifted.getD j 0) ∧
      (∀ s' n', n' ≠ 0 → s' + n' ≤ startA epi b i0 →
        read_bits (aligned_pack_loop shifted b epi ws i0) s' n' =
          read_bits ws s' n') := by
  induction shifted with
  | nil =>
    intro i0 ws _ _ _
    exact ⟨rfl, by simp, fun _ _ _ _ => rfl⟩
  | cons v rest ih =>
    intro i0 ws hvals hbound hcap
    have hv : v < 2 ^ b := hvals v (List.mem_cons_self v rest)
    have hk : i0 / epi < ws.length := by
      have := hcap 0 (by simp)
      simpa using this
    obtain ⟨ws1, hw1, hlen1, hbound1, hread1, hpres1⟩ :=
      write_bits_spec ws (startA epi b i0) (startA epi b i0) b v hb le_rfl
        hbound (startA_capacity epi b i0 ws.length hb hepi1 hepib hk)
    have hupd := aligned_update_eq_write ws v b epi i0 hb hepi1 hepib hv hk
    have hws1 : ws.set (i0 / epi)
        (ws.getD (i0 / epi) 0 ||| (v <<< ((i0 % epi) * b))) = ws1 := by
      rw [hupd] at hw1
      exact Option.some.inj hw1
    have hloop : aligned_pack_loop (v :: rest) b epi ws i0 =
        aligned_pack_loop rest b epi ws1 (i0 + 1) := by
      rw [aligned_pack_loop]
      rw [hws1]
    have hstep := startA_succ epi b i0 hb hepi1 hepib
    have hbound1' : WordsBound (startA epi b (i0 + 1)) ws1 :=
      wordsBound_mono hbound1 hstep
    have hcap' : ∀ j, j < rest.length → (i0 + 1 + j) / epi < ws1.length := by
      intro j hj
      rw [hlen1]
      have := hcap (j + 1) (by simp only [List.length_cons]; omega)
      have h4 : i0 + (j + 1) = i0 + 1 + j := by omega
      rw [h4] at this
      exact this
    have hvals' : ∀ x ∈ rest, x < 2 ^ b :=
      fun x hx => hvals x (List.mem_cons_of_mem v hx)
    obtain ⟨hlen', hreads', hpres'⟩ := ih (i0 + 1) ws1 hvals' hbound1' hcap'
    rw [hloop]
    refine ⟨hlen'.trans hlen1, ?_, ?_⟩
    · intro j hj
      cases j with
      | zero =>
        show read_bits (aligned_pack_loop rest b epi ws1 (i0 + 1))
          (startA epi b i0) b = v
        rw [hpres' (startA epi b i0) b hb hstep, hread1]
        exact Nat.mod_eq_of_lt hv
      | succ j' =>
        have hj' : j' < rest.length := by simpa using hj
        have h4 : i0 + (j' + 1) = i0 + 1 + j' := by omega
        rw [h4]
        rw [hreads' j' hj']
        rfl
    · intro s' n' hn' hle
      rw [hpres' s' n' hn' (by omega)]
      exact hpres1 s' n' hn' hle

/-- `_calculate_bits_needed` is positive on non-empty input. -/
theorem calculate_bits_needed_pos (l : List Int) (hl : l ≠ []) :
    calculate_bits_needed l ≠ 0 := by
  rw [calculate_bits_needed]
  rw [if_neg (by simpa [List.isEmpty_iff] using hl)]
  by_cases h : (if pyMin l < 0 then pyMax l - pyMin l else pyMax l) > 0
  · simp only [h, if_true]
    intro hc
    have h2 := lt_two_pow_bit_length
      (if pyMin l < 0 then pyMax l - pyMin l else pyMax l).toNat
    rw [hc] at h2
    have h3 : (if pyMin l < 0 then pyMax l - pyMin l else pyMax l).toNat = 0 := by
      omega
    rcases h3 with h3
    have h4 : ¬ (if pyMin l < 0 then pyMax l - pyMin l else pyMax l) > 0 := by
      intro hcon
      omega
    exact h4 h
  · simp only [h, if_false]
    omega

theorem foldl_min_sub (l : List Int) (a c : Int) :
    (l.map (fun v => v - c)).foldl min (a - c) = l.foldl min a - c := by
  induction l generalizing a with
  | nil => simp
  | cons y ys ih =>
    simp only [List.map_cons, List.foldl_cons]
    rw [min_sub_sub_right a y c]
    exact ih (min a y)

theorem foldl_max_sub (l : List Int) (a c : Int) :
    (l.map (fun v => v - c)).foldl max (a - c) = l.foldl max a - c := by
  induction l generalizing a with
  | nil => simp
  | cons y ys ih =>
    simp only [List.map_cons, List.foldl_cons]
    rw [max_sub_sub_right a y c]
    exact ih (max a y)

theorem pyMin_map_sub (l : List Int) (c : Int) (hl : l ≠ []) :
    pyMin (l.map (fun v => v - c)) = pyMin l - c := by
  cases l with
  | nil => exact absurd rfl hl
  | cons y ys =>
    simp only [List.map_cons, pyMin]
    exact foldl_min_sub ys y c

theorem pyMax_map_sub (l : List Int) (c : Int) (hl : l ≠ []) :
    pyMax (l.map (fun v => v - c)) = pyMax l - c := by
  cases l with
  | nil => exact absurd rfl hl
  | cons y ys =>
    simp only [List.map_cons, pyMax]
    exact foldl_max_sub ys y c

/-- The bit width chosen by the aligned compressor, in terms of the value
range of the input. -/
theorem aligned_bits_eq (array : List Int) (harr : array ≠ []) :
    calculate_bits_needed (array.map (fun value => value - pyMin array)) =
      if 0 < pyMax array - pyMin array then
        bit_length (pyMax array - pyMin array).toNat
      else 1 := by
  have h0 : (array.map (fun value => value - pyMin array)).isEmpty = false := by
    cases array with
    | nil => exact absurd rfl harr
    | cons y ys => rfl
  rw [calculate_bits_needed]
  simp only [h0, Bool.false_eq_true, if_false]
  rw [pyMin_map_sub array (pyMin array) harr, sub_self]
  rw [if_neg (lt_irrefl 0)]
  rw [pyMax_map_sub array (pyMin array) harr]

theorem shifted_toNat_lt (array : List Int) (harr : array ≠ []) {v : Int}
    (hv : v ∈ array) :
    (v - pyMin array).toNat <
      2 ^ calculate_bits_needed (array.map (fun value => value - pyMin array)) := by
  rw [aligned_bits_eq array harr]
  have h1 : pyMin array ≤ v := pyMin_le hv
  have h2 : v ≤ pyMax array := le_pyMax hv
  by_cases h : 0 < pyMax array - pyMin array
  · rw [if_pos h]
    have h3 : (v - pyMin array).toNat ≤ (pyMax array - pyMin array).toNat := by
      omega
    exact lt_of_le_of_lt h3 (lt_two_pow_bit_length _)
  · rw [if_neg h]
    have h4 : (v - pyMin array).toNat = 0 := by omega
    rw [h4]
    norm_num

theorem aligned_compress_ok (s : AlignedState) (array : List Int)
    (b epi : Nat) (harr : array ≠ [])
    (hbdef : b = calculate_bits_needed
      (array.map (fun value => value - pyMin array)))
    (hepidef : epi = 32 / b) (hb32 : b ≤ 32) :
    ∃ ws : List Nat,
      aligned_compress s array = ({ s with
          original_length := array.length
          min_value := pyMin array
          bits_per_element := b
          compressed_data := pyMin array :: ws.map Int.ofNat },
        .ok (pyMin array :: ws.map Int.ofNat)) ∧
      ws.length = (array.length + epi - 1) / epi ∧
      (∀ j, j < array.length →
        read_bits ws (startA epi b j) b = (array.getD j 0 - pyMin array).toNat) := by
  have hmapne : array.map (fun value => value - pyMin array) ≠ [] := by
    simpa using harr
  have hb : b ≠ 0 := hbdef ▸ calculate_bits_needed_pos _ hmapne
  have hbpos : 0 < b := Nat.pos_of_ne_zero hb
  have hepi1 : 1 ≤ epi := by
    rw [hepidef]
    exact (Nat.one_le_div_iff hbpos).mpr hb32
  have hepib : epi * b ≤ 32 := by
    rw [hepidef]
    exact Nat.div_mul_le_self 32 b
  have hn : array.length ≠ 0 := by
    intro hc
    exact harr (List.length_eq_zero.mp hc)
  set n := array.length with hndef
  set W := (n + epi - 1) / epi with hWdef
  have hcap : ∀ j, j < n → j / epi < W := by
    intro j hj
    have h1 : W = (n - 1) / epi + 1 := by
      rw [hWdef]
      have h2 : n + epi - 1 = (n - 1) + epi := by omega
      rw [h2]
      exact Nat.add_div_right _ hepi1
    have h3 : j / epi ≤ (n - 1) / epi := Nat.div_le_div_right (by omega)
    omega
  set shiftedN := (array.map (fun value => value - pyMin array)).map Int.toNat
    with hsNdef
  have hvals : ∀ x ∈ shiftedN, x < 2 ^ b := by
    intro x hx
    rw [hsNdef] at hx
    obtain ⟨y, hy1, hy2⟩ := List.mem_map.mp hx
    obtain ⟨v, hv1, hv2⟩ := List.mem_map.mp hy1
    rw [← hy2, ← hv2, hbdef]
    exact shifted_toNat_lt array harr hv1
  have hlenN : shiftedN.length = n := by simp [hsNdef, hndef]
  have hbound0 : WordsBound (startA epi b 0) (List.replicate W 0) := by
    have h0 : startA epi b 0 = 0 := by simp [startA]
    rw [h0]
    exact wordsBound_replicate 0 W
  obtain ⟨hlenP, hreadsP, _⟩ := aligned_pack_loop_spec b epi hb hepi1 hepib
    shiftedN 0 (List.replicate W 0) hvals hbound0
    (by
      intro j hj
      rw [List.length_replicate, Nat.zero_add]
      exact hcap j (by rw [← hlenN]; exact hj))
  refine ⟨aligned_pack_loop shiftedN b epi (List.replicate W 0) 0, ?_, ?_, ?_⟩
  · rw [aligned_compress]
    rw [if_neg (by simpa [List.isEmpty_iff] using harr)]
    simp only [← hbdef, ← hepidef, ← hndef, ← hWdef, ← hsNdef]
    rw [if_pos hbpos]
    rw [if_neg (by omega : ¬ epi = 0)]
  · rw [hlenP, List.length_replicate]
  · intro j hj
    have := hreadsP j (by rw [hlenN]; exact hj)
    rw [Nat.zero_add] at this
    rw [this]
    rw [hsNdef]
    have hj2 : j < array.length := hj
    have hjm : j < (array.map (fun value => value - pyMin array)).length := by
      simpa using hj2
    rw [List.getD_eq_getElem?_getD, List.getElem?_eq_getElem (by simpa using hjm)]
    simp only [Option.getD_some, List.getElem_map]
    rw [List.getD_eq_getElem?_getD, List.getElem?_eq_getElem hj2]
    simp

theorem int_land_coe (a c : Nat) :
    Int.land ((a : Nat) : Int) ((c : Nat) : Int) = ((a &&& c : Nat) : Int) := rfl

/-- The slice `((buffer_word >> bit_offset) & mask)` computed by
`AlignedBitPacking.decompress`/`get` over Python ints equals the `Nat`
level `_read_bits` of the same field. -/
theorem aligned_read_value (ws : List Nat) (b epi i : Nat)
    (hb : b ≠ 0) (hepi1 : 1 ≤ epi) (hepib : epi * b ≤ 32)
    (hoi : i / epi < ws.length) :
    Int.land ((ws.map Int.ofNat).getD (i / epi) 0 >>> ((i % epi * b : Nat) : Int))
        ((1 <<< ((b : Nat) : Int)) - 1) =
      Int.ofNat (read_bits ws (startA epi b i) b) := by
  obtain ⟨hdiv, hmod⟩ := startA_div epi b i hb hepi1 hepib
  have h1 := startA_mod_lt epi b i hb hepi1 hepib
  rw [getD_map_ofNat]
  simp only [Int.ofNat_eq_natCast]
  rw [Int.shiftRight_coe_nat]
  have hone : (1 : Int) = ((1 : Nat) : Int) := rfl
  rw [hone, Int.shiftLeft_coe_nat]
  have hmask : (((1 <<< b : Nat) : Int)) - 1 = (((1 <<< b) - 1 : Nat) : Int) := by
    have h2 : 1 ≤ 1 <<< b := by
      rw [Nat.one_shiftLeft]
      exact Nat.one_le_two_pow
    omega
  rw [hmask, int_land_coe]
  congr 1
  rw [read_bits_eq ws (startA epi b i) b hb]
  rw [if_neg (by omega), if_pos (by rw [hmod]; omega)]
  rw [hdiv, hmod]
  rw [Nat.shiftRight_eq_div_pow, Nat.one_shiftLeft,
    Nat.and_pow_two_sub_one_eq_mod]

theorem aligned_compress_err (s : AlignedState) (array : List Int)
    (harr : array ≠ [])
    (hbgt : 32 < calculate_bits_needed
      (array.map (fun value => value - pyMin array))) :
    aligned_compress s array = ({ s with
        original_length := array.length
        min_value := pyMin array
        bits_per_element := calculate_bits_needed
          (array.map (fun value => value - pyMin array)) },
      .error .zeroDivisionError) := by
  have hb : calculate_bits_needed
      (array.map (fun value => value - pyMin array)) ≠ 0 := by omega
  set b := calculate_bits_needed (array.map (fun value => value - pyMin array))
    with hbdef
  rw [aligned_compress]
  rw [if_neg (by simpa [List.isEmpty_iff] using harr)]
  simp only [← hbdef]
  rw [if_pos (Nat.pos_of_ne_zero hb)]
  rw [if_pos (show 32 / b = 0 from Nat.div_eq_of_lt (by omega))]

theorem aligned_decompress_spec (s s' : AlignedState) (array buf : List Int)
    (h : aligned_compress s array = (s', .ok buf)) :
    aligned_decompress s' buf = (s', .ok array) := by
  by_cases harr : array = []
  · subst harr
    have h1 : aligned_compress s [] = (s, .ok []) := rfl
    rw [h1] at h
    have hs : s = s' := by
      have := congrArg Prod.fst h
      simpa using this
    have hb : ([] : List Int) = buf := by
      have := congrArg Prod.snd h
      simpa using this
    rw [← hs, ← hb]
    rfl
  · by_cases hb32 : calculate_bits_needed
        (array.map (fun value => value - pyMin array)) ≤ 32
    · obtain ⟨ws, hc, hlen, hreads⟩ := aligned_compress_ok s array
        (calculate_bits_needed (array.map (fun value => value - pyMin array)))
        (32 / calculate_bits_needed (array.map (fun value => value - pyMin array)))
        harr rfl rfl hb32
      rw [h] at hc
      set b := calculate_bits_needed (array.map (fun value => value - pyMin array))
        with hbdef
      set epi := 32 / b with hepidef
      set m := pyMin array with hmdef
      set n := array.length with hndef
      have hmapne : array.map (fun value => value - m) ≠ [] := by simpa using harr
      have hb : b ≠ 0 := hbdef ▸ calculate_bits_needed_pos _ hmapne
      have hbpos : 0 < b := Nat.pos_of_ne_zero hb
      have hepi1 : 1 ≤ epi := by
        rw [hepidef]
        exact (Nat.one_le_div_iff hbpos).mpr hb32
      have hepib : epi * b ≤ 32 := by
        rw [hepidef]
        exact Nat.div_mul_le_self 32 b
      have hn : n ≠ 0 := by
        intro hcn
        exact harr (List.length_eq_zero.mp hcn)
      have hs' : s' = { s with
          original_length := n
          min_value := m
          bits_per_element := b
          compressed_data := m :: ws.map Int.ofNat } := by
        have := congrArg Prod.fst hc
        simpa using this
      have hbuf : buf = m :: ws.map Int.ofNat := by
        have := congrArg Prod.snd hc
        simpa using this
      have hW1 : 1 ≤ (n + epi - 1) / epi := by
        have h2 : epi ≤ n + epi - 1 := by omega
        have := Nat.one_le_div_iff (show 0 < epi by omega) |>.mpr h2
        exact this
      have hcapW : ∀ j, j < n → j / epi < ws.length := by
        intro j hj
        rw [hlen]
        have h1 : (n + epi - 1) / epi = (n - 1) / epi + 1 := by
          have h2 : n + epi - 1 = (n - 1) + epi := by omega
          rw [h2]
          exact Nat.add_div_right _ hepi1
        have h3 : j / epi ≤ (n - 1) / epi := Nat.div_le_div_right (by omega)
        omega
      subst hbuf
      rw [aligned_decompress]
      rw [if_neg (by
        simp only [List.isEmpty_cons, List.length_cons, not_or]
        constructor
        · simp
        · simp only [not_lt]
          have : 1 ≤ (ws.map Int.ofNat).length := by
            rw [List.length_map, hlen]
            exact hW1
          omega)]
      have hhead : ((m :: ws.map Int.ofNat).headD 0) = m := rfl
      have hs1 : { s' with min_value := (m :: ws.map Int.ofNat).headD 0 } = s' := by
        rw [hhead, hs']
      rw [hs1]
      have holen : s'.original_length = n := by rw [hs']
      have hbits : s'.bits_per_element = b := by rw [hs']
      have hmin : s'.min_value = m := by rw [hs']
      simp only [holen, hbits, hmin, List.tail_cons]
      rw [if_pos hbpos]
      rw [if_neg (by
        intro hcon
        omega)]
      refine congrArg _ (congrArg _ ?_)
      apply List.ext_getElem
      · simp [hndef]
      · intro i h1 h2
        have hi : i < n := by simpa using h1
        simp only [List.getElem_map, List.getElem_range]
        rw [if_pos (by
          rw [List.length_map]
          exact hcapW i hi)]
        rw [aligned_read_value ws b epi i hb hepi1 hepib (hcapW i hi)]
        rw [hreads i hi]
        have hmem : array.getD i 0 ∈ array := by
          rw [List.getD_eq_getElem?_getD, List.getElem?_eq_getElem (by
            rw [← hndef]; exact hi)]
          simp only [Option.getD_some]
          exact List.getElem_mem _
        have hge : m ≤ array.getD i 0 := pyMin_le hmem
        have htn : (Int.ofNat (array.getD i 0 - m).toNat) = array.getD i 0 - m := by
          simp only [Int.ofNat_eq_natCast]
          omega
        rw [htn]
        have harr_i : array.getD i 0 = array[i] := by
          rw [List.getD_eq_getElem?_getD, List.getElem?_eq_getElem (by
            rw [← hndef]; exact hi)]
          simp
        rw [← harr_i]
        ring
    · have herr := aligned_compress_err s array harr (by omega)
      rw [h] at herr
      have := congrArg Prod.snd herr
      simp at this

/-! ## Correctness of `ZigZagBitPacking` -/

/-- `_zigzag_encode` always yields a non-negative int (so delegating the
encoded list to the `Nat`-valued simple packer is faithful). -/
theorem zigzag_encode_nonneg (v : Int) : 0 ≤ zigzag_encode v := by
  cases v with
  | ofNat n =>
    have h : zigzag_encode (Int.ofNat n) = Int.ofNat (2 * n ^^^ n >>> 31) := rfl
    rw [h]
    exact Int.ofNat_nonneg _
  | negSucc m =>
    have h : zigzag_encode (Int.negSucc m) =
        Int.ofNat ((2 * m + 1) ^^^ m >>> 31) := rfl
    rw [h]
    exact Int.ofNat_nonneg _

/-- On the 32-bit domain `-2^31 ≤ v < 2^31`, decoding the (non-negative)
encoded value recovers `v`. -/
theorem zigzag_decode_encode (v : Int) (h1 : -(2 ^ 31) ≤ v) (h2 : v < 2 ^ 31) :
    zigzag_decode (Int.ofNat (zigzag_encode v).toNat) = v := by
  cases v with
  | ofNat n =>
    have hn : n < 2 ^ 31 := by
      have h3 : (n : Int) < 2 ^ 31 := h2
      exact_mod_cast h3
    have hsh : n >>> 31 = 0 := by
      rw [Nat.shiftRight_eq_div_pow]
      exact Nat.div_eq_of_lt hn
    have he : zigzag_encode (Int.ofNat n) = Int.ofNat (2 * n ^^^ n >>> 31) := rfl
    have he2 : zigzag_encode (Int.ofNat n) = Int.ofNat (2 * n) := by
      rw [he, hsh, Nat.xor_zero]
    rw [he2]
    have ht : (Int.ofNat (2 * n)).toNat = 2 * n := rfl
    rw [ht]
    have hd : zigzag_decode (Int.ofNat (2 * n)) =
        Int.xor (Int.ofNat ((2 * n) >>> 1)) (-(Int.ofNat ((2 * n) &&& 1))) := rfl
    rw [hd]
    have ha : (2 * n) &&& 1 = 0 := by
      rw [Nat.and_one_is_mod]
      omega
    have hs : (2 * n) >>> 1 = n := by
      rw [Nat.shiftRight_eq_div_pow]
      omega
    rw [ha, hs]
    have hx : Int.xor (Int.ofNat n) (-Int.ofNat 0) = Int.ofNat (n ^^^ 0) := rfl
    rw [hx, Nat.xor_zero]
  | negSucc m =>
    have hm : m < 2 ^ 31 := by
      have : (Int.negSucc m) = -(m + 1 : Nat) := rfl
      omega
    have hsh : m >>> 31 = 0 := by
      rw [Nat.shiftRight_eq_div_pow]
      exact Nat.div_eq_of_lt hm
    have he : zigzag_encode (Int.negSucc m) =
        Int.ofNat ((2 * m + 1) ^^^ m >>> 31) := rfl
    have he2 : zigzag_encode (Int.negSucc m) = Int.ofNat (2 * m + 1) := by
      rw [he, hsh, Nat.xor_zero]
    rw [he2]
    have ht : (Int.ofNat (2 * m + 1)).toNat = 2 * m + 1 := rfl
    rw [ht]
    have hd : zigzag_decode (Int.ofNat (2 * m + 1)) =
        Int.xor (Int.ofNat ((2 * m + 1) >>> 1))
          (-(Int.ofNat ((2 * m + 1) &&& 1))) := rfl
    rw [hd]
    have ha : (2 * m + 1) &&& 1 = 1 := by
      rw [Nat.and_one_is_mod]
      omega
    have hs : (2 * m + 1) >>> 1 = m := by
      rw [Nat.shiftRight_eq_div_pow]
      omega
    rw [ha, hs]
    have hx : Int.xor (Int.ofNat m) (-Int.ofNat 1) = Int.negSucc (m ^^^ 0) := rfl
    rw [hx, Nat.xor_zero]

theorem zigzag_compress_eq (s : SimpleState) (array : List Int)
    (harr : array ≠ []) :
    zigzag_compress s array =
      simple_compress s (array.map fun value => (zigzag_encode value).toNat) := by
  rw [zigzag_compress, if_neg (by simpa [List.isEmpty_iff] using harr)]

theorem zigzag_decompress_spec (s s' : SimpleState) (array : List Int)
    (buf : List Nat)
    (hdom : ∀ x ∈ array, -(2 ^ 31) ≤ x ∧ x < 2 ^ 31)
    (h : zigzag_compress s array = (s', .ok buf)) :
    zigzag_decompress s' buf = (s', .ok array) := by
  by_cases harr : array = []
  · subst harr
    have h1 : zigzag_compress s [] = (s, .ok []) := rfl
    rw [h1] at h
    have hs : s = s' := by
      have := congrArg Prod.fst h
      simpa using this
    have hb : ([] : List Nat) = buf := by
      have := congrArg Prod.snd h
      simpa using this
    rw [← hs, ← hb]
    rfl
  · set encN := array.map (fun value => (zigzag_encode value).toNat) with hencdef
    have hencne : encN ≠ [] := by
      rw [hencdef]
      simpa using harr
    rw [zigzag_compress_eq s array harr] at h
    have hd := simple_decompress_spec s s' encN buf h
    obtain ⟨ws, hc, hlen, hne, hreads⟩ := simple_compress_ok s encN hencne
    rw [h] at hc
    have hbuf : buf = ws := by
      have := congrArg Prod.snd hc
      simpa using this
    have hbufne : buf ≠ [] := hbuf ▸ hne
    rw [zigzag_decompress, if_neg (by simpa [List.isEmpty_iff] using hbufne)]
    rw [hd]
    simp only [Except.map]
    refine congrArg _ (congrArg _ ?_)
    apply List.ext_getElem
    · simp [hencdef]
    · intro i h1 h2
      have hi : i < array.length := by simpa using h2
      simp only [List.getElem_map, hencdef]
      obtain ⟨hd1, hd2⟩ := hdom array[i] (List.getElem_mem hi)
      exact zigzag_decode_encode _ hd1 hd2

theorem zigzag_get_spec (s s' : SimpleState) (array : List Int)
    (buf : List Nat)
    (hdom : ∀ x ∈ array, -(2 ^ 31) ≤ x ∧ x < 2 ^ 31)
    (h : zigzag_compress s array = (s', .ok buf)) (i : Nat)
    (hi : i < array.length) :
    zigzag_get s' (i : Int) = .ok (array.getD i 0) := by
  have harr : array ≠ [] := by
    intro hc
    subst hc
    simp at hi
  set encN := array.map (fun value => (zigzag_encode value).toNat) with hencdef
  have hencne : encN ≠ [] := by
    rw [hencdef]
    simpa using harr
  rw [zigzag_compress_eq s array harr] at h
  have hienc : i < encN.length := by
    rw [hencdef]
    simpa using hi
  have hg := simple_get_spec s s' encN buf h i hienc
  obtain ⟨ws, hc, _, _, _⟩ := simple_compress_ok s encN hencne
  rw [h] at hc
  have hs' : s'.original_length = encN.length := by
    have := congrArg Prod.fst hc
    have h2 : s' = { s with
        original_length := encN.length
        bits_per_element := calculate_bits_needed (encN.map Int.ofNat)
        compressed_data := ws } := by simpa using this
    rw [h2]
  rw [zigzag_get, if_neg (by
    rw [hs']
    simp only [not_or, not_lt, not_le]
    refine ⟨Int.natCast_nonneg i, ?_⟩
    exact_mod_cast hienc)]
  rw [hg]
  simp only [Except.map]
  congr 1
  have hgetd : encN.getD i 0 = (zigzag_encode (array.getD i 0)).toNat := by
    rw [hencdef]
    rw [List.getD_eq_getElem?_getD, List.getElem?_eq_getElem (by simpa using hi)]
    simp only [Option.getD_some, List.getElem_map]
    rw [List.getD_eq_getElem?_getD, List.getElem?_eq_getElem hi]
    simp
  rw [hgetd]
  obtain ⟨hd1, hd2⟩ := hdom (array.getD i 0) (by
    rw [List.getD_eq_getElem?_getD, List.getElem?_eq_getElem hi]
    simp only [Option.getD_some]
    exact List.getElem_mem hi)
  exact zigzag_decode_encode _ hd1 hd2

theorem aligned_get_spec (s s' : AlignedState) (array buf : List Int)
    (h : aligned_compress s array = (s', .ok buf)) (i : Nat)
    (hi : i < array.length) :
    aligned_get s' (i : Int) = .ok (array.getD i 0) := by
  have harr : array ≠ [] := by
    intro hc
    subst hc
    simp at hi
  by_cases hb32 : calculate_bits_needed
      (array.map (fun value => value - pyMin array)) ≤ 32
  · obtain ⟨ws, hc, hlen, hreads⟩ := aligned_compress_ok s array
      (calculate_bits_needed (array.map (fun value => value - pyMin array)))
      (32 / calculate_bits_needed (array.map (fun value => value - pyMin array)))
      harr rfl rfl hb32
    rw [h] at hc
    set b := calculate_bits_needed (array.map (fun value => value - pyMin array))
      with hbdef
    set epi := 32 / b with hepidef
    set m := pyMin array with hmdef
    set n := array.length with hndef
    have hmapne : array.map (fun value => value - m) ≠ [] := by simpa using harr
    have hb : b ≠ 0 := hbdef ▸ calculate_bits_needed_pos _ hmapne
    have hbpos : 0 < b := Nat.pos_of_ne_zero hb
    have hepi1 : 1 ≤ epi := by
      rw [hepidef]
      exact (Nat.one_le_div_iff hbpos).mpr hb32
    have hepib : epi * b ≤ 32 := by
      rw [hepidef]
      exact Nat.div_mul_le_self 32 b
    have hs' : s' = { s with
        original_length := n
        min_value := m
        bits_per_element := b
        compressed_data := m :: ws.map Int.ofNat } := by
      have := congrArg Prod.fst hc
      simpa using this
    have hcapW : i / epi < ws.length := by
      rw [hlen]
      have h1 : (n + epi - 1) / epi = (n - 1) / epi + 1 := by
        have h2 : n + epi - 1 = (n - 1) + epi := by omega
        rw [h2]
        exact Nat.add_div_right _ hepi1
      have h3 : i / epi ≤ (n - 1) / epi := Nat.div_le_div_right (by omega)
      omega
    have holen : s'.original_length = n := by rw [hs']
    have hbits : s'.bits_per_element = b := by rw [hs']
    have hmin : s'.min_value = m := by rw [hs']
    have htailc : s'.compressed_data.tail = ws.map Int.ofNat := by
      rw [hs']
      rfl
    rw [aligned_get]
    rw [if_neg (by
      rw [holen]
      simp only [not_or, not_lt, not_le]
      refine ⟨Int.natCast_nonneg i, ?_⟩
      exact_mod_cast hi)]
    simp only [holen, hbits, hmin, htailc]
    rw [if_pos hbpos]
    simp only [← hepidef]
    rw [if_neg (by omega : ¬ epi = 0)]
    have htoNat : ((i : Int)).toNat = i := rfl
    simp only [htoNat]
    rw [if_pos (by
      rw [List.length_map]
      exact hcapW)]
    rw [aligned_read_value ws b epi i hb hepi1 hepib hcapW]
    rw [hreads i hi]
    have hmem : array.getD i 0 ∈ array := by
      rw [List.getD_eq_getElem?_getD, List.getElem?_eq_getElem (by
        rw [← hndef]; exact hi)]
      simp only [Option.getD_some]
      exact List.getElem_mem _
    have hge : m ≤ array.getD i 0 := pyMin_le hmem
    have htn : (Int.ofNat (array.getD i 0 - m).toNat) = array.getD i 0 - m := by
      simp only [Int.ofNat_eq_natCast]
      omega
    rw [htn]
    congr 1
    ring
  · have herr := aligned_compress_err s array harr (by omega)
    rw [h] at herr
    have := congrArg Prod.snd herr
    simp at this

/-! ## Correctness of `OverflowBitPacking` -/

/-- Where `SimpleBitPacking._write_bits` would succeed,
`OverflowBitPacking._write_bits` computes the same array. -/
theorem overflow_write_bits_eq (arr : List Nat) (start num v : Nat)
    (arr' : List Nat) (h : write_bits arr start num v = some arr') :
    overflow_write_bits arr start num v = arr' := by
  simp only [write_bits] at h
  simp only [overflow_write_bits]
  by_cases h0 : num = 0
  · rw [if_pos h0] at h
    rw [if_pos h0]
    exact Option.some.inj h
  · rw [if_neg h0] at h
    rw [if_neg h0]
    by_cases h1 : start / 32 < arr.length
    · rw [if_pos h1] at h
      rw [if_neg (by omega : ¬ arr.length ≤ start / 32)]
      by_cases h2 : start % 32 + num ≤ 32
      · rw [if_pos h2] at h
        rw [if_pos h2]
        exact Option.some.inj h
      · rw [if_neg h2] at h
        rw [if_neg h2]
        by_cases h3 : start / 32 + 1 <
            (arr.set (start / 32) (arr.getD (start / 32) 0 |||
              (v &&& (1 <<< num) - 1 &&& (1 <<< (32 - start % 32)) - 1) <<<
                (start % 32))).length
        · rw [if_pos h3] at h
          rw [if_pos h3]
          exact Option.some.inj h
        · rw [if_neg h3] at h
          rw [if_neg h3]
          exact Option.some.inj h
    · rw [if_neg h1] at h
      exact absurd h (by simp)

/-- Where the simple packing loop would succeed, the overflow packing loop
computes the same array. -/
theorem overflow_write_loop_eq (b : Nat) (vals : List Nat) :
    ∀ (i0 : Nat) (arr ws' : List Nat),
      simple_write_loop vals b arr i0 = some ws' →
      overflow_write_loop vals b arr i0 = ws' := by
  induction vals with
  | nil =>
    intro i0 arr ws' h
    rw [simple_write_loop] at h
    rw [overflow_write_loop]
    exact Option.some.inj h
  | cons v rest ih =>
    intro i0 arr ws' h
    rw [simple_write_loop] at h
    rw [overflow_write_loop]
    cases hw : write_bits arr (i0 * b) b v with
    | none =>
      rw [hw] at h
      simp at h
    | some arr1 =>
      rw [hw] at h
      rw [overflow_write_bits_eq arr (i0 * b) b v arr1 hw]
      exact ih (i0 + 1) arr1 ws' h

/-- Looking up an element at its own `indexOf` recovers the element. -/
theorem getD_indexOf (l : List Nat) (v : Nat) (h : v ∈ l) :
    l.getD (l.indexOf v) 0 = v := by
  have hlt : l.indexOf v < l.length := List.indexOf_lt_length.mpr h
  rw [List.getD_eq_getElem?_getD, List.getElem?_eq_getElem hlt]
  simp only [Option.getD_some]
  exact List.getElem_indexOf hlt

theorem getD_append_left (l1 l2 : List Nat) (j : Nat) (h : j < l1.length) :
    (l1 ++ l2).getD j 0 = l1.getD j 0 := by
  rw [List.getD_eq_getElem?_getD, List.getD_eq_getElem?_getD,
    List.getElem?_append, if_pos h]

theorem getD_append_length_add (l1 l2 : List Nat) (j : Nat) :
    (l1 ++ l2).getD (l1.length + j) 0 = l2.getD j 0 := by
  rw [List.getD_eq_getElem?_getD, List.getD_eq_getElem?_getD,
    List.getElem?_append_right (by omega)]
  have he : l1.length + j - l1.length = j := by omega
  rw [he]

/-- Every element of the array occurs in `sorted(set(array))`. -/
theorem mem_sorted_values_of (array : List Nat) (v : Nat) (hv : v ∈ array) :
    v ∈ sorted_values_of array := by
  rw [sorted_values_of]
  exact (List.perm_insertionSort _ _).mem_iff.mpr (List.mem_dedup.mpr hv)

theorem sorted_values_nodup (array : List Nat) :
    (sorted_values_of array).Nodup := by
  rw [sorted_values_of]
  exact ((List.perm_insertionSort _ _).nodup_iff).mpr (List.nodup_dedup array)

/-- A duplicate-free list of naturals bounded by `t` has at most `t + 1`
elements. -/
theorem nodup_le_bound_length (l : List Nat) (t : Nat) (hnod : l.Nodup)
    (hle : ∀ x ∈ l, x ≤ t) : l.length ≤ t + 1 := by
  have h1 : l.toFinset ⊆ Finset.range (t + 1) := by
    intro x hx
    rw [Finset.mem_range]
    have := hle x (List.mem_toFinset.mp hx)
    omega
  have h2 := Finset.card_le_card h1
  rw [List.toFinset_card_of_nodup hnod] at h2
  simpa using h2

/-- A duplicate-free list whose elements all occur in `big` is no longer
than `big`. -/
theorem nodup_length_le_of_mem (l big : List Nat) (hnod : l.Nodup)
    (hsub : ∀ x ∈ l, x ∈ big) : l.length ≤ big.length := by
  have h1 : l.toFinset ⊆ big.toFinset := by
    intro x hx
    exact List.mem_toFinset.mpr (hsub x (List.mem_toFinset.mp hx))
  have h2 := Finset.card_le_card h1
  rw [List.toFinset_card_of_nodup hnod] at h2
  exact h2.trans (List.toFinset_card_le big)

/-- `_analyze_overflow_strategy` only assigns the four strategy fields;
the buffers and the element count are untouched. -/
theorem analyze_preserves (s : OverflowState) (array : List Nat) :
    (analyze_overflow_strategy s array).original_length = s.original_length ∧
    (analyze_overflow_strategy s array).compressed_data = s.compressed_data ∧
    (analyze_overflow_strategy s array).overflow_data = s.overflow_data := by
  simp only [analyze_overflow_strategy]
  split_ifs <;> exact ⟨rfl, rfl, rfl⟩

/-- A duplicate-free list of naturals with at least two elements has a
maximum of at least 1. -/
theorem one_le_pyMaxN_of_nodup (l : List Nat) (hnod : l.Nodup)
    (hlen : 2 ≤ l.length) : 1 ≤ pyMaxN l := by
  cases l with
  | nil => simp at hlen
  | cons a l' =>
    cases l' with
    | nil => simp at hlen
    | cons b t =>
      have hab : a ≠ b := by
        have h1 := (List.nodup_cons.mp hnod).1
        intro hc
        exact h1 (by rw [hc]; simp)
      have h1 : a ≤ pyMaxN (a :: b :: t) := le_pyMaxN (by simp)
      have h2 : b ≤ pyMaxN (a :: b :: t) := le_pyMaxN (by simp)
      omega

/-- On non-empty input the analysis always chooses a positive main width. -/
theorem analyze_main_bits_pos (s : OverflowState) (array : List Nat)
    (harr : array ≠ []) : (analyze_overflow_strategy s array).main_bits ≠ 0 := by
  simp only [analyze_overflow_strategy]
  rw [if_neg (by simpa [List.isEmpty_iff] using harr)]
  set sorted := sorted_values_of array with hsorted
  set MB := bit_length (pyMaxN sorted) with hMB
  set TB := Nat.max 3 (int_mul06 MB) with hTB
  split_ifs with h1 h2 h3
  · exact calculate_bits_needed_ofNat_pos array harr
  · show TB ≠ 0
    have h3le : 3 ≤ TB := hTB ▸ Nat.le_max_left 3 (int_mul06 MB)
    omega
  · show TB ≠ 0
    have h3le : 3 ≤ TB := hTB ▸ Nat.le_max_left 3 (int_mul06 MB)
    omega
  · show MB ≠ 0
    have hmax : 1 ≤ pyMaxN sorted := by
      apply one_le_pyMaxN_of_nodup sorted (sorted_values_nodup array)
      omega
    intro h0
    have := lt_two_pow_bit_length (pyMaxN sorted)
    rw [hMB] at h0
    rw [h0] at this
    omega

/-- Elements that the chosen strategy does not route to the overflow table
fit in `main_bits` bits. -/
theorem analyze_nonoverflow_lt (s : OverflowState) (array : List Nat)
    (harr : array ≠ []) (v : Nat) (hv : v ∈ array)
    (hno : needs_overflow (analyze_overflow_strategy s array) v = false) :
    v < 2 ^ (analyze_overflow_strategy s array).main_bits := by
  simp only [analyze_overflow_strategy] at hno ⊢
  rw [if_neg (by simpa [List.isEmpty_iff] using harr)] at hno ⊢
  set sorted := sorted_values_of array with hsorted
  set MB := bit_length (pyMaxN sorted) with hMB
  set TB := Nat.max 3 (int_mul06 MB) with hTB
  split_ifs at hno ⊢ with h1 h2 h3
  · exact mem_lt_two_pow_calculate_bits array harr hv
  · show v < 2 ^ TB
    rw [needs_overflow] at hno
    simp only [Bool.true_and, decide_eq_false_iff_not, not_lt] at hno
    have hpow : 0 < 2 ^ TB := Nat.pos_pow_of_pos TB (by norm_num)
    have hsh : (1 : Nat) <<< TB = 2 ^ TB := Nat.one_shiftLeft TB
    have hvle : v ≤ 1 <<< TB - 1 := hno
    omega
  · show v < 2 ^ TB
    rw [needs_overflow] at hno
    simp only [Bool.true_and, decide_eq_false_iff_not, not_lt] at hno
    have hpow : 0 < 2 ^ TB := Nat.pos_pow_of_pos TB (by norm_num)
    have hsh : (1 : Nat) <<< TB = 2 ^ TB := Nat.one_shiftLeft TB
    have hvle : v ≤ 1 <<< TB - 1 := hno
    omega
  · show v < 2 ^ MB
    exact lt_of_le_of_lt (le_pyMaxN (mem_sorted_values_of array v hv))
      (lt_two_pow_bit_length _)

/-- Any duplicate-free list of array elements exceeding the threshold is
no longer than the analysis's own list of distinct overflow values. -/
theorem overflow_table_le (array : List Nat) (tv : Nat) (l : List Nat)
    (hnod : l.Nodup) (hmem : ∀ x ∈ l, x ∈ array ∧ tv < x) :
    l.length ≤ ((sorted_values_of array).filter (fun v => tv < v)).length := by
  apply nodup_length_le_of_mem l _ hnod
  intro x hx
  obtain ⟨hx1, hx2⟩ := hmem x hx
  exact List.mem_filter.mpr ⟨mem_sorted_values_of array x hx1, by simpa using hx2⟩

/-- When the analysis condition holds (`count > 0` and
`count < len(sorted) * 0.3` over exact doubles), the number of distinct
overflow values is below `2 ^ threshold_bits`: the at most
`2 ^ threshold_bits` distinct values not exceeding the threshold make up
more than half of the distinct values. -/
theorem overflow_count_lt (array : List Nat) (tb : Nat)
    (hcond : ((sorted_values_of array).filter
        (fun v => 1 <<< tb - 1 < v)).length * 2 ^ 54
      < mul03num (sorted_values_of array).length) :
    ((sorted_values_of array).filter (fun v => 1 <<< tb - 1 < v)).length
      < 2 ^ tb := by
  set sorted := sorted_values_of array with hsorted
  set OV := sorted.filter (fun v => decide (1 <<< tb - 1 < v)) with hOV
  set NV := sorted.filter (fun v => ! decide (1 <<< tb - 1 < v)) with hNV
  have h2o : 2 * OV.length < sorted.length := lt_mul03_implies _ _ hcond
  have hsplit : OV.length + NV.length = sorted.length := by
    have hperm := List.filter_append_perm
      (fun v => decide (1 <<< tb - 1 < v)) sorted
    have := hperm.length_eq
    simpa using this
  have hNVnodup : NV.Nodup := (sorted_values_nodup array).filter _
  have hNVle : ∀ x ∈ NV, x ≤ 1 <<< tb - 1 := by
    intro x hx
    have := (List.mem_filter.mp hx).2
    simp only [Bool.not_eq_true', decide_eq_false_iff_not, not_lt] at this
    exact this
  have hNVlen : NV.length ≤ (1 <<< tb - 1) + 1 :=
    nodup_le_bound_length NV _ hNVnodup hNVle
  have hsh : (1 : Nat) <<< tb = 2 ^ tb := Nat.one_shiftLeft tb
  have hpow : 0 < 2 ^ tb := Nat.pos_pow_of_pos tb (by norm_num)
  omega

/-- In the overflow regime, every possible overflow table fits in
`main_bits` bits and the recorded `overflow_bits` never exceeds
`main_bits`. -/
theorem analyze_hov_spec (s : OverflowState) (array : List Nat)
    (harr : array ≠ [])
    (hov : (analyze_overflow_strategy s array).has_overflow_bit = true) :
    (∀ l : List Nat, l.Nodup →
      (∀ x ∈ l, x ∈ array ∧
        (analyze_overflow_strategy s array).threshold_value < x) →
      l.length < 2 ^ (analyze_overflow_strategy s array).main_bits) ∧
    (analyze_overflow_strategy s array).overflow_bits ≤
      (analyze_overflow_strategy s array).main_bits := by
  simp only [analyze_overflow_strategy] at hov ⊢
  rw [if_neg (by simpa [List.isEmpty_iff] using harr)] at hov ⊢
  set sorted := sorted_values_of array with hsorted
  set MB := bit_length (pyMaxN sorted) with hMB
  set TB := Nat.max 3 (int_mul06 MB) with hTB
  split_ifs at hov ⊢ with h1 h2 h3
  · have hcnt : (sorted.filter (fun v => 1 <<< TB - 1 < v)).length < 2 ^ TB :=
      overflow_count_lt array TB h2.2
    constructor
    · show ∀ l : List Nat, l.Nodup →
        (∀ x ∈ l, x ∈ array ∧ 1 <<< TB - 1 < x) → l.length < 2 ^ TB
      intro l hnod hmem
      have := overflow_table_le array (1 <<< TB - 1) l hnod hmem
      rw [← hsorted] at this
      omega
    · show bit_length
          ((sorted.filter (fun v => 1 <<< TB - 1 < v)).length + 1 - 1) ≤ TB
      have heq : (sorted.filter (fun v => 1 <<< TB - 1 < v)).length + 1 - 1 =
          (sorted.filter (fun v => 1 <<< TB - 1 < v)).length := by omega
      rw [heq]
      exact bit_length_le _ _ hcnt
  · have hcnt : (sorted.filter (fun v => 1 <<< TB - 1 < v)).length < 2 ^ TB :=
      overflow_count_lt array TB h2.2
    constructor
    · show ∀ l : List Nat, l.Nodup →
        (∀ x ∈ l, x ∈ array ∧ 1 <<< TB - 1 < x) → l.length < 2 ^ TB
      intro l hnod hmem
      have := overflow_table_le array (1 <<< TB - 1) l hnod hmem
      rw [← hsorted] at this
      omega
    · show (1 : Nat) ≤ TB
      have h3le : 3 ≤ TB := hTB ▸ Nat.le_max_left 3 (int_mul06 MB)
      omega

/-- Specification of the encoding loop of `OverflowBitPacking.compress`:
the produced `main_values` extend the accumulator one encoded element per
input element, the overflow table grows by appending first occurrences
(so it stays duplicate-free, contains only overflow values from the
input, and the dict lookup agrees with `indexOf` on the final table). -/
theorem overflow_encode_loop_spec (s : OverflowState) (vals : List Nat) :
    ∀ mvs0 od0 : List Nat, od0.Nodup →
      (∀ x ∈ od0, needs_overflow s x = true) →
      (overflow_encode_loop s vals mvs0 od0).1.length
          = mvs0.length + vals.length ∧
      (overflow_encode_loop s vals mvs0 od0).2.Nodup ∧
      (∀ x ∈ (overflow_encode_loop s vals mvs0 od0).2,
        needs_overflow s x = true ∧ (x ∈ od0 ∨ x ∈ vals)) ∧
      (∃ t, (overflow_encode_loop s vals mvs0 od0).2 = od0 ++ t) ∧
      (∀ j, j < mvs0.length →
        (overflow_encode_loop s vals mvs0 od0).1.getD j 0 = mvs0.getD j 0) ∧
      (∀ j, j < vals.length →
        (needs_overflow s (vals.getD j 0) = true ∧
          vals.getD j 0 ∈ (overflow_encode_loop s vals mvs0 od0).2 ∧
          (overflow_encode_loop s vals mvs0 od0).1.getD (mvs0.length + j) 0 =
            (1 <<< s.main_bits) |||
              (overflow_encode_loop s vals mvs0 od0).2.indexOf
                (vals.getD j 0)) ∨
        (needs_overflow s (vals.getD j 0) = false ∧
          (overflow_encode_loop s vals mvs0 od0).1.getD (mvs0.length + j) 0 =
            vals.getD j 0)) := by
  induction vals with
  | nil =>
    intro mvs0 od0 hnod hmem
    simp only [overflow_encode_loop]
    refine ⟨by simp, hnod, ?_, ⟨[], by simp⟩, ?_, ?_⟩
    · intro x hx
      exact ⟨hmem x hx, Or.inl hx⟩
    · intro j hj
      trivial
    · intro j hj
      simp at hj
  | cons v rest ih =>
    intro mvs0 od0 hnod hmem
    by_cases hno : needs_overflow s v = true
    · by_cases hv : v ∈ od0
      · have hstep : overflow_encode_loop s (v :: rest) mvs0 od0 =
            overflow_encode_loop s rest
              (mvs0 ++ [(1 <<< s.main_bits) ||| od0.indexOf v]) od0 := by
          rw [overflow_encode_loop, if_pos hno, if_pos hv]
        rw [hstep]
        obtain ⟨ihlen, ihnod, ihmem, ⟨t, ht⟩, ihpre, ihmain⟩ :=
          ih (mvs0 ++ [(1 <<< s.main_bits) ||| od0.indexOf v]) od0 hnod hmem
        refine ⟨?_, ihnod, ?_, ⟨t, ht⟩, ?_, ?_⟩
        · rw [ihlen]
          simp only [List.length_append, List.length_cons,
            List.length_singleton, List.length_nil]
          omega
        · intro x hx
          obtain ⟨hx1, hx2⟩ := ihmem x hx
          exact ⟨hx1, hx2.imp id (List.mem_cons_of_mem v)⟩
        · intro j hj
          rw [ihpre j (by simp only [List.length_append, List.length_singleton, List.length_cons, List.length_nil]; omega)]
          exact getD_append_left mvs0 _ j hj
        · intro j hj
          cases j with
          | zero =>
            left
            simp only [List.getD_cons_zero]
            refine ⟨hno, ?_, ?_⟩
            · rw [ht]
              exact List.mem_append_left t hv
            · have h1 := ihpre mvs0.length (by simp)
              have h2 : (mvs0 ++ [(1 <<< s.main_bits) |||
                  od0.indexOf v]).getD mvs0.length 0 =
                  (1 <<< s.main_bits) ||| od0.indexOf v := by
                have := getD_append_length_add mvs0
                  [(1 <<< s.main_bits) ||| od0.indexOf v] 0
                simpa using this
              rw [Nat.add_zero, h1, h2, ht,
                List.indexOf_append_of_mem hv]
          | succ j' =>
            have hj' : j' < rest.length := by simpa using hj
            have hmain := ihmain j' hj'
            have hidx : (mvs0 ++ [(1 <<< s.main_bits) |||
                od0.indexOf v]).length + j' = mvs0.length + (j' + 1) := by
              simp only [List.length_append, List.length_singleton,
                List.length_cons, List.length_nil]
              omega
            rw [hidx] at hmain
            exact hmain
      · have hstep : overflow_encode_loop s (v :: rest) mvs0 od0 =
            overflow_encode_loop s rest
              (mvs0 ++ [(1 <<< s.main_bits) ||| (od0 ++ [v]).indexOf v])
              (od0 ++ [v]) := by
          rw [overflow_encode_loop, if_pos hno, if_neg hv]
        rw [hstep]
        have hnod1 : (od0 ++ [v]).Nodup := by
          rw [List.nodup_append]
          refine ⟨hnod, List.nodup_singleton v, ?_⟩
          intro x hx hx2
          rw [List.mem_singleton] at hx2
          exact hv (hx2 ▸ hx)
        have hmem1 : ∀ x ∈ od0 ++ [v], needs_overflow s x = true := by
          intro x hx
          rcases List.mem_append.mp hx with h | h
          · exact hmem x h
          · rw [List.mem_singleton] at h
            exact h ▸ hno
        obtain ⟨ihlen, ihnod, ihmem, ⟨t, ht⟩, ihpre, ihmain⟩ :=
          ih (mvs0 ++ [(1 <<< s.main_bits) ||| (od0 ++ [v]).indexOf v])
            (od0 ++ [v]) hnod1 hmem1
        refine ⟨?_, ihnod, ?_, ⟨[v] ++ t, by rw [ht, List.append_assoc]⟩,
          ?_, ?_⟩
        · rw [ihlen]
          simp only [List.length_append, List.length_cons,
            List.length_singleton, List.length_nil]
          omega
        · intro x hx
          obtain ⟨hx1, hx2⟩ := ihmem x hx
          refine ⟨hx1, ?_⟩
          rcases hx2 with h | h
          · rcases List.mem_append.mp h with h2 | h2
            · exact Or.inl h2
            · rw [List.mem_singleton] at h2
              exact Or.inr (h2 ▸ List.mem_cons_self v rest)
          · exact Or.inr (List.mem_cons_of_mem v h)
        · intro j hj
          rw [ihpre j (by simp only [List.length_append, List.length_singleton, List.length_cons, List.length_nil]; omega)]
          exact getD_append_left mvs0 _ j hj
        · intro j hj
          cases j with
          | zero =>
            left
            simp only [List.getD_cons_zero]
            have hvmem : v ∈ od0 ++ [v] := by simp
            refine ⟨hno, ?_, ?_⟩
            · rw [ht]
              exact List.mem_append_left t hvmem
            · have h1 := ihpre mvs0.length (by simp)
              have h2 : (mvs0 ++ [(1 <<< s.main_bits) |||
                  (od0 ++ [v]).indexOf v]).getD mvs0.length 0 =
                  (1 <<< s.main_bits) ||| (od0 ++ [v]).indexOf v := by
                have := getD_append_length_add mvs0
                  [(1 <<< s.main_bits) ||| (od0 ++ [v]).indexOf v] 0
                simpa using this
              rw [Nat.add_zero, h1, h2, ht,
                List.indexOf_append_of_mem hvmem]
          | succ j' =>
            have hj' : j' < rest.length := by simpa using hj
            have hmain := ihmain j' hj'
            have hidx : (mvs0 ++ [(1 <<< s.main_bits) |||
                (od0 ++ [v]).indexOf v]).length + j'
                  = mvs0.length + (j' + 1) := by
              simp only [List.length_append, List.length_singleton,
                List.length_cons, List.length_nil]
              omega
            rw [hidx] at hmain
            exact hmain
    · have hnof : needs_overflow s v = false := by
        revert hno
        cases needs_overflow s v <;> simp
      have hstep : overflow_encode_loop s (v :: rest) mvs0 od0 =
          overflow_encode_loop s rest (mvs0 ++ [v]) od0 := by
        rw [overflow_encode_loop, if_neg hno]
      rw [hstep]
      obtain ⟨ihlen, ihnod, ihmem, ⟨t, ht⟩, ihpre, ihmain⟩ :=
        ih (mvs0 ++ [v]) od0 hnod hmem
      refine ⟨?_, ihnod, ?_, ⟨t, ht⟩, ?_, ?_⟩
      · rw [ihlen]
        simp only [List.length_append, List.length_cons,
          List.length_singleton, List.length_nil]
        omega
      · intro x hx
        obtain ⟨hx1, hx2⟩ := ihmem x hx
        exact ⟨hx1, hx2.imp id (List.mem_cons_of_mem v)⟩
      · intro j hj
        rw [ihpre j (by simp only [List.length_append, List.length_singleton, List.length_cons, List.length_nil]; omega)]
        exact getD_append_left mvs0 _ j hj
      · intro j hj
        cases j with
        | zero =>
          right
          simp only [List.getD_cons_zero]
          refine ⟨hnof, ?_⟩
          have h1 := ihpre mvs0.length (by simp)
          have h2 : (mvs0 ++ [v]).getD mvs0.length 0 = v := by
            have := getD_append_length_add mvs0 [v] 0
            simpa using this
          rw [Nat.add_zero, h1, h2]
        | succ j' =>
          have hj' : j' < rest.length := by simpa using hj
          have hmain := ihmain j' hj'
          have hidx : (mvs0 ++ [v]).length + j' = mvs0.length + (j' + 1) := by
            simp only [List.length_append, List.length_singleton,
              List.length_cons, List.length_nil]
            omega
          rw [hidx] at hmain
          exact hmain

/-- The flag-bit encoding `(1 << main_bits) | index` is plain addition
when the index fits under the flag. -/
theorem one_shiftLeft_lor_eq_add (mb idx : Nat) (h : idx < 2 ^ mb) :
    (1 <<< mb) ||| idx = 2 ^ mb + idx := by
  rw [Nat.one_shiftLeft, Nat.lor_comm]
  have h1 := lor_mul_pow idx 1 mb h
  rw [Nat.one_mul] at h1
  exact h1

theorem add_pow_and_two_pow (mb idx : Nat) (h : idx < 2 ^ mb) :
    (2 ^ mb + idx) &&& 2 ^ mb ≠ 0 := by
  rw [Nat.and_two_pow]
  have hdiv : (2 ^ mb + idx) / 2 ^ mb = 1 := by
    rw [Nat.add_comm, Nat.add_div_right idx (Nat.pos_pow_of_pos _ (by norm_num)),
      Nat.div_eq_of_lt h]
  have htb : (2 ^ mb + idx).testBit mb = true := by
    rw [Nat.testBit_to_div_mod, hdiv]
    simp
  rw [htb]
  have : 0 < 2 ^ mb := Nat.pos_pow_of_pos _ (by norm_num)
  simp only [Bool.toNat_true, Nat.one_mul]
  omega

theorem lt_two_pow_and_two_pow (mb v : Nat) (h : v < 2 ^ mb) :
    v &&& 2 ^ mb = 0 := by
  rw [Nat.and_two_pow, Nat.testBit_lt_two_pow h]
  simp

theorem add_pow_and_mask (mb idx : Nat) (h : idx < 2 ^ mb) :
    (2 ^ mb + idx) &&& (2 ^ mb - 1) = idx := by
  rw [Nat.and_pow_two_sub_one_eq_mod, Nat.add_mod_left, Nat.mod_eq_of_lt h]

theorem lt_two_pow_and_mask (mb v : Nat) (h : v < 2 ^ mb) :
    v &&& (2 ^ mb - 1) = v := by
  rw [Nat.and_pow_two_sub_one_eq_mod, Nat.mod_eq_of_lt h]

/-- Master correctness of `OverflowBitPacking.compress` on non-empty
input: the returned buffer is the packed main words followed by the
overflow table, the table is small enough for its indices to fit under
the flag bit, and each field of the main words reads back either the
element itself or the flagged table index. -/
theorem overflow_compress_ok (s : OverflowState) (array : List Nat)
    (harr : array ≠ []) (s1 : OverflowState) (w : Nat)
    (hs1 : s1 = analyze_overflow_strategy
      { s with original_length := array.length } array)
    (hw : w = s1.main_bits + (if s1.has_overflow_bit then 1 else 0)) :
    ∃ ws od : List Nat,
      overflow_compress s array =
        ({ s1 with overflow_data := od, compressed_data := ws ++ od },
          .ok (ws ++ od)) ∧
      ws.length = (array.length * w + 31) / 32 ∧
      1 ≤ ws.length ∧
      od.Nodup ∧
      od.length < 2 ^ s1.main_bits ∧
      (∀ i, i < array.length →
        (needs_overflow s1 (array.getD i 0) = true ∧
          array.getD i 0 ∈ od ∧
          read_bits ws (i * w) w =
            2 ^ s1.main_bits + od.indexOf (array.getD i 0)) ∨
        (needs_overflow s1 (array.getD i 0) = false ∧
          array.getD i 0 < 2 ^ s1.main_bits ∧
          read_bits ws (i * w) w = array.getD i 0)) := by
  have hn : array.length ≠ 0 := fun hc => harr (List.length_eq_zero.mp hc)
  have hmb : s1.main_bits ≠ 0 := by
    rw [hs1]
    exact analyze_main_bits_pos _ array harr
  have hwpos : w ≠ 0 := by
    rw [hw]
    split_ifs <;> omega
  obtain ⟨elen, enod, emem, ⟨t0, ht0⟩, _, emain⟩ :=
    overflow_encode_loop_spec s1 array [] [] List.nodup_nil
      (by intro x hx; simp at hx)
  set mvs := (overflow_encode_loop s1 array [] []).1 with hmvs
  set od := (overflow_encode_loop s1 array [] []).2 with hod
  simp only [List.length_nil, Nat.zero_add] at elen emain
  have hodlen : od.length < 2 ^ s1.main_bits := by
    by_cases hov : s1.has_overflow_bit = true
    · have hhov := analyze_hov_spec { s with original_length := array.length }
        array harr (by rw [← hs1]; exact hov)
      rw [← hs1] at hhov
      apply hhov.1 od enod
      intro x hx
      obtain ⟨hneed, hsrc⟩ := emem x hx
      rw [needs_overflow, Bool.and_eq_true, decide_eq_true_eq] at hneed
      refine ⟨?_, hneed.2⟩
      rcases hsrc with h | h
      · simp at h
      · exact h
    · have hnil : od = [] := by
        rcases hempty : od with _ | ⟨a, od'⟩
        · rfl
        · exfalso
          have hmema : a ∈ od := by rw [hempty]; simp
          have := (emem a hmema).1
          rw [needs_overflow, Bool.and_eq_true] at this
          exact hov this.1
      rw [hnil]
      have : 0 < 2 ^ s1.main_bits := Nat.pos_pow_of_pos _ (by norm_num)
      simpa using this
  have hvals : ∀ j, j < array.length → mvs.getD j 0 < 2 ^ w := by
    intro j hj
    rcases emain j hj with ⟨hno, hmemod, hval⟩ | ⟨hno, hval⟩
    · have hidx : od.indexOf (array.getD j 0) < od.length :=
        List.indexOf_lt_length.mpr hmemod
      have hlt : od.indexOf (array.getD j 0) < 2 ^ s1.main_bits := by omega
      rw [hval, one_shiftLeft_lor_eq_add _ _ hlt]
      have hov : s1.has_overflow_bit = true := by
        rw [needs_overflow, Bool.and_eq_true] at hno
        exact hno.1
      rw [hw, if_pos hov]
      have hp : (2 : Nat) ^ (s1.main_bits + 1) = 2 ^ s1.main_bits * 2 := by ring
      omega
    · rw [hval]
      have hmemarr : array.getD j 0 ∈ array := by
        rw [List.getD_eq_getElem?_getD, List.getElem?_eq_getElem hj]
        simp only [Option.getD_some]
        exact List.getElem_mem _
      have hvlt : array.getD j 0 < 2 ^ s1.main_bits := by
        have := analyze_nonoverflow_lt { s with original_length := array.length }
          array harr _ hmemarr (by rw [← hs1]; exact hno)
        rw [← hs1] at this
        exact this
      have hle : 2 ^ s1.main_bits ≤ 2 ^ w := by
        apply Nat.pow_le_pow_right (by norm_num)
        rw [hw]
        split_ifs <;> omega
      omega
  set W := (array.length * w + 31) / 32 with hW
  have hdivup : ∀ A : Nat, A ≤ 32 * ((A + 31) / 32) := by
    intro A
    omega
  have hbound0 : WordsBound (0 * w) (List.replicate W 0) :=
    wordsBound_replicate _ W
  have hcap : (0 + mvs.length) * w ≤ 32 * (List.replicate W 0).length := by
    rw [List.length_replicate, Nat.zero_add, elen, hW]
    exact hdivup (array.length * w)
  obtain ⟨ws, hwl, hwlen, _, hreads, _⟩ :=
    simple_write_loop_spec w hwpos mvs 0 (List.replicate W 0) hbound0 hcap
  have hoveq : overflow_write_loop mvs w (List.replicate W 0) 0 = ws :=
    overflow_write_loop_eq w mvs 0 _ ws hwl
  have hwslen : ws.length = W := by
    rw [hwlen, List.length_replicate]
  have hW1 : 1 ≤ W := by
    have hAw : 1 ≤ array.length * w :=
      Nat.mul_pos (Nat.pos_of_ne_zero hn) (Nat.pos_of_ne_zero hwpos)
    rw [hW]
    omega
  refine ⟨ws, od, ?_, by rw [hwslen, hW], by omega, enod, hodlen, ?_⟩
  · rw [overflow_compress]
    rw [if_neg (by simpa [List.isEmpty_iff] using harr)]
    simp only [← hs1, ← hmvs, ← hod, ← hw, elen, ← hW, hoveq]
  · intro i hi
    have hr := hreads i (by rw [elen]; exact hi)
    rw [Nat.zero_add] at hr
    have hrv : read_bits ws (i * w) w = mvs.getD i 0 := by
      rw [hr, Nat.mod_eq_of_lt (hvals i hi)]
    rcases emain i hi with ⟨hno, hmemod, hval⟩ | ⟨hno, hval⟩
    · left
      have hidx : od.indexOf (array.getD i 0) < od.length :=
        List.indexOf_lt_length.mpr hmemod
      have hlt : od.indexOf (array.getD i 0) < 2 ^ s1.main_bits := by omega
      refine ⟨hno, hmemod, ?_⟩
      rw [hrv, hval, one_shiftLeft_lor_eq_add _ _ hlt]
    · right
      have hmemarr : array.getD i 0 ∈ array := by
        rw [List.getD_eq_getElem?_getD, List.getElem?_eq_getElem hi]
        simp only [Option.getD_some]
        exact List.getElem_mem _
      have hvlt : array.getD i 0 < 2 ^ s1.main_bits := by
        have := analyze_nonoverflow_lt { s with original_length := array.length }
          array harr _ hmemarr (by rw [← hs1]; exact hno)
        rw [← hs1] at this
        exact this
      exact ⟨hno, hvlt, by rw [hrv, hval]⟩

theorem overflow_decompress_spec (s s' : OverflowState)
    (array buf : List Nat)
    (h : overflow_compress s array = (s', .ok buf)) :
    overflow_decompress s' buf = (s', .ok array) := by
  by_cases harr : array = []
  · subst harr
    have h1 : overflow_compress s [] = (s, .ok []) := rfl
    rw [h1] at h
    have hs : s = s' := by
      have := congrArg Prod.fst h
      simpa using this
    have hb : ([] : List Nat) = buf := by
      have := congrArg Prod.snd h
      simpa using this
    rw [← hs, ← hb]
    rfl
  · set s1 := analyze_overflow_strategy
      { s with original_length := array.length } array with hs1
    set w := s1.main_bits + (if s1.has_overflow_bit then 1 else 0) with hwdef
    obtain ⟨ws, od, hc, hlen, hws1, hodnod, hodlen, hmain⟩ :=
      overflow_compress_ok s array harr s1 w hs1 hwdef
    rw [h] at hc
    have hs' : s' = { s1 with
        overflow_data := od
        compressed_data := ws ++ od } := by
      have := congrArg Prod.fst hc
      simpa using this
    have hbuf : buf = ws ++ od := by
      have := congrArg Prod.snd hc
      simpa using this
    have hmb : s'.main_bits = s1.main_bits := by rw [hs']
    have hhov : s'.has_overflow_bit = s1.has_overflow_bit := by rw [hs']
    have holen : s'.original_length = array.length := by
      rw [hs']
      show s1.original_length = array.length
      rw [hs1]
      exact (analyze_preserves _ _).1
    subst hbuf
    rw [overflow_decompress]
    rw [if_neg (by
      simp only [List.isEmpty_iff]
      intro hws
      have hlc := congrArg List.length hws
      simp only [List.length_append, List.length_nil] at hlc
      omega)]
    simp only [hmb, hhov, holen, ← hwdef]
    rw [← hlen]
    rw [List.take_left, List.drop_left]
    refine congrArg _ (congrArg _ ?_)
    apply List.ext_getElem
    · simp
    · intro i h1 h2
      have hi : i < array.length := by simpa using h1
      simp only [List.getElem_map, List.getElem_range]
      have hgetD : array.getD i 0 = array[i] := by
        rw [List.getD_eq_getElem?_getD, List.getElem?_eq_getElem hi]
        simp
      rcases hmain i hi with ⟨hno, hmemod, hval⟩ | ⟨hno, hvlt, hval⟩
      · have hov : s1.has_overflow_bit = true := by
          rw [needs_overflow, Bool.and_eq_true] at hno
          exact hno.1
        have hidx : od.indexOf (array.getD i 0) < od.length :=
          List.indexOf_lt_length.mpr hmemod
        have hlt : od.indexOf (array.getD i 0) < 2 ^ s1.main_bits := by omega
        rw [hval, hov, if_pos rfl]
        have hand : (2 ^ s1.main_bits + od.indexOf (array.getD i 0)) &&&
            (1 <<< s1.main_bits) ≠ 0 := by
          rw [Nat.one_shiftLeft]
          exact add_pow_and_two_pow _ _ hlt
        rw [if_pos (by
          simp only [Bool.true_and, decide_eq_true_eq]
          exact hand)]
        have hoi : (2 ^ s1.main_bits + od.indexOf (array.getD i 0)) &&&
            ((1 <<< s1.main_bits) - 1) = od.indexOf (array.getD i 0) := by
          rw [Nat.one_shiftLeft]
          exact add_pow_and_mask _ _ hlt
        rw [hoi, if_pos hidx, getD_indexOf od _ hmemod, hgetD]
      · rw [hval]
        have hv2 : array.getD i 0 &&& ((1 <<< s1.main_bits) - 1) =
            array.getD i 0 := by
          rw [Nat.one_shiftLeft]
          exact lt_two_pow_and_mask _ _ hvlt
        by_cases hov : s1.has_overflow_bit = true
        · rw [hov, if_pos rfl]
          have hand0 : array.getD i 0 &&& (1 <<< s1.main_bits) = 0 := by
            rw [Nat.one_shiftLeft]
            exact lt_two_pow_and_two_pow _ _ hvlt
          rw [if_neg (by
            simp only [Bool.true_and, decide_eq_true_eq]
            exact fun hcon => hcon hand0)]
          rw [hv2, hgetD]
        · have hovf : s1.has_overflow_bit = false := by
            revert hov
            cases s1.has_overflow_bit <;> simp
          rw [hovf]
          rw [if_neg (by simp)]
          rw [hv2, hgetD]

theorem overflow_get_spec (s s' : OverflowState) (array buf : List Nat)
    (h : overflow_compress s array = (s', .ok buf)) (i : Nat)
    (hi : i < array.length) :
    overflow_get s' (i : Int) = .ok (array.getD i 0) := by
  have harr : array ≠ [] := by
    intro hc
    subst hc
    simp at hi
  set s1 := analyze_overflow_strategy
    { s with original_length := array.length } array with hs1
  set w := s1.main_bits + (if s1.has_overflow_bit then 1 else 0) with hwdef
  obtain ⟨ws, od, hc, hlen, hws1, hodnod, hodlen, hmain⟩ :=
    overflow_compress_ok s array harr s1 w hs1 hwdef
  rw [h] at hc
  have hs' : s' = { s1 with
      overflow_data := od
      compressed_data := ws ++ od } := by
    have := congrArg Prod.fst hc
    simpa using this
  have hmb : s'.main_bits = s1.main_bits := by rw [hs']
  have hhov : s'.has_overflow_bit = s1.has_overflow_bit := by rw [hs']
  have hcd : s'.compressed_data = ws ++ od := by rw [hs']
  have holen : s'.original_length = array.length := by
    rw [hs']
    show s1.original_length = array.length
    rw [hs1]
    exact (analyze_preserves _ _).1
  rw [overflow_get]
  rw [if_neg (by
    rw [holen]
    simp only [not_or, not_lt, not_le]
    refine ⟨Int.natCast_nonneg i, ?_⟩
    exact_mod_cast hi)]
  simp only [hmb, hhov, holen, hcd, ← hwdef]
  rw [← hlen]
  rw [List.take_left]
  have htoNat : ((i : Int)).toNat = i := rfl
  simp only [htoNat]
  rcases hmain i hi with ⟨hno, hmemod, hval⟩ | ⟨hno, hvlt, hval⟩
  · have hov : s1.has_overflow_bit = true := by
      rw [needs_overflow, Bool.and_eq_true] at hno
      exact hno.1
    have hidx : od.indexOf (array.getD i 0) < od.length :=
      List.indexOf_lt_length.mpr hmemod
    have hlt : od.indexOf (array.getD i 0) < 2 ^ s1.main_bits := by omega
    rw [hval, hov, if_pos rfl]
    have hand : (2 ^ s1.main_bits + od.indexOf (array.getD i 0)) &&&
        (1 <<< s1.main_bits) ≠ 0 := by
      rw [Nat.one_shiftLeft]
      exact add_pow_and_two_pow _ _ hlt
    rw [if_pos (by
      simp only [Bool.true_and, decide_eq_true_eq]
      exact hand)]
    have hoi : (2 ^ s1.main_bits + od.indexOf (array.getD i 0)) &&&
        ((1 <<< s1.main_bits) - 1) = od.indexOf (array.getD i 0) := by
      rw [Nat.one_shiftLeft]
      exact add_pow_and_mask _ _ hlt
    rw [hoi]
    rw [if_pos (by
      rw [List.length_append]
      omega)]
    rw [getD_append_length_add ws od _, getD_indexOf od _ hmemod]
  · rw [hval]
    have hv2 : array.getD i 0 &&& ((1 <<< s1.main_bits) - 1) =
        array.getD i 0 := by
      rw [Nat.one_shiftLeft]
      exact lt_two_pow_and_mask _ _ hvlt
    by_cases hov : s1.has_overflow_bit = true
    · rw [hov, if_pos rfl]
      have hand0 : array.getD i 0 &&& (1 <<< s1.main_bits) = 0 := by
        rw [Nat.one_shiftLeft]
        exact lt_two_pow_and_two_pow _ _ hvlt
      rw [if_neg (by
        simp only [Bool.true_and, decide_eq_true_eq]
        exact fun hcon => hcon hand0)]
      rw [hv2]
    · have hovf : s1.has_overflow_bit = false := by
        revert hov
        cases s1.has_overflow_bit <;> simp
      rw [hovf]
      rw [if_neg (by simp)]
      rw [hv2]

/-! ## The specification's claims -/

/-- C1: for every sequence of non-negative integers, compress followed by
decompress on the returned buffer and state yields the sequence back.
Amended: this holds unconditionally for `SimpleBitPacking` and
`OverflowBitPacking` (their `compress` never raises); for
`AlignedBitPacking` it holds whenever `compress` returned a buffer — on
ranges needing more than 32 bits, `compress` raises `ZeroDivisionError`
instead (see the counterexample). -/
theorem C1_round_trip :
    (∀ (s : SimpleState) (array : List Nat), ∃ s' buf,
      simple_compress s array = (s', .ok buf) ∧
      simple_decompress s' buf = (s', .ok array)) ∧
    (∀ (s : OverflowState) (array : List Nat), ∃ s' buf,
      overflow_compress s array = (s', .ok buf) ∧
      overflow_decompress s' buf = (s', .ok array)) ∧
    (∀ (s : AlignedState) (array : List Int) (s' : AlignedState)
      (buf : List Int), aligned_compress s array = (s', .ok buf) →
      aligned_decompress s' buf = (s', .ok array)) := by
  refine ⟨?_, ?_, ?_⟩
  · intro s array
    by_cases harr : array = []
    · subst harr
      exact ⟨s, [], rfl, rfl⟩
    · obtain ⟨ws, hc, _, _, _⟩ := simple_compress_ok s array harr
      exact ⟨_, ws, hc, simple_decompress_spec s _ array ws hc⟩
  · intro s array
    by_cases harr : array = []
    · subst harr
      exact ⟨s, [], rfl, rfl⟩
    · obtain ⟨ws, od, hc, _, _, _, _, _⟩ := overflow_compress_ok s array harr
        (analyze_overflow_strategy { s with original_length := array.length }
          array)
        ((analyze_overflow_strategy { s with original_length := array.length }
            array).main_bits +
          (if (analyze_overflow_strategy
              { s with original_length := array.length }
              array).has_overflow_bit then 1 else 0)) rfl rfl
      exact ⟨_, ws ++ od, hc, overflow_decompress_spec s _ array _ hc⟩
  · intro s array s' buf h
    exact aligned_decompress_spec s s' array buf h

/-- Witness for C1: the aligned clause applied to the concrete input
`[3, 1, 2]`. -/
theorem C1_round_trip_witness :
    aligned_compress { compressed_data := [], original_length := 0, bits_per_element := 0, min_value := 0 } [3, 1, 2] =
      ({ compressed_data := [1, 18], original_length := 3, bits_per_element := 2, min_value := 1 }, .ok [1, 18]) ∧
    aligned_decompress { compressed_data := [1, 18], original_length := 3, bits_per_element := 2, min_value := 1 } [1, 18] =
      ({ compressed_data := [1, 18], original_length := 3, bits_per_element := 2, min_value := 1 }, .ok [3, 1, 2]) :=
  ⟨by decide, C1_round_trip.2.2 { compressed_data := [], original_length := 0, bits_per_element := 0, min_value := 0 } [3, 1, 2] { compressed_data := [1, 18], original_length := 3, bits_per_element := 2, min_value := 1 } [1, 18] (by decide)⟩

/-- Counterexample to the original C1: on the non-negative input
`[0, 2^32]` the aligned strategy needs 33 bits per element, so
`elements_per_int = 32 // 33 = 0` and `compress` raises
`ZeroDivisionError` — the round trip is impossible. -/
theorem C1_round_trip_counterexample :
    (aligned_compress { compressed_data := [], original_length := 0, bits_per_element := 0, min_value := 0 } [0, 4294967296]).2 =
      .error .zeroDivisionError := by decide

/-- C2: after a successful `compress(v)`, `get(i)` returns `v[i]` for
every in-range `i`, with no prior `decompress` (the three strategies the
claim names). -/
theorem C2_per_index_get :
    (∀ (s : SimpleState) (array : List Nat) (s' : SimpleState)
      (buf : List Nat) (i : Nat), simple_compress s array = (s', .ok buf) →
      i < array.length → simple_get s' (i : Int) = .ok (array.getD i 0)) ∧
    (∀ (s : AlignedState) (array : List Int) (s' : AlignedState)
      (buf : List Int) (i : Nat), aligned_compress s array = (s', .ok buf) →
      i < array.length → aligned_get s' (i : Int) = .ok (array.getD i 0)) ∧
    (∀ (s : OverflowState) (array : List Nat) (s' : OverflowState)
      (buf : List Nat) (i : Nat), overflow_compress s array = (s', .ok buf) →
      i < array.length → overflow_get s' (i : Int) = .ok (array.getD i 0)) :=
  ⟨fun s array s' buf i h hi => simple_get_spec s s' array buf h i hi,
   fun s array s' buf i h hi => aligned_get_spec s s' array buf h i hi,
   fun s array s' buf i h hi => overflow_get_spec s s' array buf h i hi⟩

/-- Witness for C2: the three clauses applied to `[5, 1, 7]` (simple,
overflow) and `[-5, 3, 100]` (aligned). -/
theorem C2_per_index_get_witness :
    simple_get { compressed_data := [461], original_length := 3, bits_per_element := 3 } (2 : Int) = .ok 7 ∧
    aligned_get { compressed_data := [-5, 1721344], original_length := 3, bits_per_element := 7, min_value := -5 } (1 : Int) = .ok 3 ∧
    overflow_get { compressed_data := [461], original_length := 3, bits_per_element := 0, overflow_data := [], overflow_bits := 0, main_bits := 3, has_overflow_bit := false, threshold_value := 7 }
      (2 : Int) = .ok 7 :=
  ⟨C2_per_index_get.1 { compressed_data := [], original_length := 0, bits_per_element := 0 } [5, 1, 7]
      { compressed_data := [461], original_length := 3, bits_per_element := 3 } [461] 2 (by decide) (by decide),
   C2_per_index_get.2.1 { compressed_data := [], original_length := 0, bits_per_element := 0, min_value := 0 } [-5, 3, 100]
      { compressed_data := [-5, 1721344], original_length := 3, bits_per_element := 7, min_value := -5 } [-5, 1721344] 1
      (by decide) (by decide),
   C2_per_index_get.2.2 { compressed_data := [], original_length := 0, bits_per_element := 0, overflow_data := [], overflow_bits := 0, main_bits := 0, has_overflow_bit := false, threshold_value := 0 }
      [5, 1, 7]
      { compressed_data := [461], original_length := 3, bits_per_element := 0, overflow_data := [], overflow_bits := 0, main_bits := 3, has_overflow_bit := false, threshold_value := 7 }
      [461] 2 (by decide) (by decide)⟩

/-- C3: signed round-trip and per-index correctness.  Amended: for the
aligned strategy both hold whenever `compress` succeeded; for the
zigzag-wrapped strategy both hold on sequences whose elements lie in the
32-bit signed range `[-2^31, 2^31)` — outside it the `>> 31` in the
encoder makes decoding non-inverse (see the counterexample). -/
theorem C3_signed_round_trip :
    (∀ (s : AlignedState) (array : List Int) (s' : AlignedState)
      (buf : List Int), aligned_compress s array = (s', .ok buf) →
      aligned_decompress s' buf = (s', .ok array) ∧
      ∀ i : Nat, i < array.length →
        aligned_get s' (i : Int) = .ok (array.getD i 0)) ∧
    (∀ (s : SimpleState) (array : List Int) (s' : SimpleState)
      (buf : List Nat), (∀ x ∈ array, -(2 ^ 31) ≤ x ∧ x < 2 ^ 31) →
      zigzag_compress s array = (s', .ok buf) →
      zigzag_decompress s' buf = (s', .ok array) ∧
      ∀ i : Nat, i < array.length →
        zigzag_get s' (i : Int) = .ok (array.getD i 0)) := by
  constructor
  · intro s array s' buf h
    exact ⟨aligned_decompress_spec s s' array buf h,
      fun i hi => aligned_get_spec s s' array buf h i hi⟩
  · intro s array s' buf hdom h
    exact ⟨zigzag_decompress_spec s s' array buf hdom h,
      fun i hi => zigzag_get_spec s s' array buf hdom h i hi⟩

/-- Witness for C3: the aligned clause on `[-5, 3, 100]` and the zigzag
clause on `[-3, 4]`. -/
theorem C3_signed_round_trip_witness :
    aligned_decompress { compressed_data := [-5, 1721344], original_length := 3, bits_per_element := 7, min_value := -5 } [-5, 1721344] =
      ({ compressed_data := [-5, 1721344], original_length := 3, bits_per_element := 7, min_value := -5 }, .ok [-5, 3, 100]) ∧
    zigzag_decompress { compressed_data := [133], original_length := 2, bits_per_element := 4 } [133] =
      ({ compressed_data := [133], original_length := 2, bits_per_element := 4 }, .ok [-3, 4]) ∧
    zigzag_get { compressed_data := [133], original_length := 2, bits_per_element := 4 } (1 : Int) = .ok 4 :=
  ⟨(C3_signed_round_trip.1 { compressed_data := [], original_length := 0, bits_per_element := 0, min_value := 0 } [-5, 3, 100] { compressed_data := [-5, 1721344], original_length := 3, bits_per_element := 7, min_value := -5 } [-5, 1721344] (by decide)).1,
   (C3_signed_round_trip.2 { compressed_data := [], original_length := 0, bits_per_element := 0 } [-3, 4] { compressed_data := [133], original_length := 2, bits_per_element := 4 } [133] (by decide) (by decide)).1,
   (C3_signed_round_trip.2 { compressed_data := [], original_length := 0, bits_per_element := 0 } [-3, 4] { compressed_data := [133], original_length := 2, bits_per_element := 4 } [133] (by decide) (by decide)).2 1 (by decide)⟩

/-- Counterexample to the original C3: for the one-element integer
sequence `[2^31]`, the zigzag wrapper compresses successfully but
decompressing the produced buffer yields `[-2^31 - 1]`, not `[2^31]`. -/
theorem C3_signed_round_trip_counterexample :
    zigzag_compress { compressed_data := [], original_length := 0, bits_per_element := 0 } [(2147483648 : Int)] =
      ({ compressed_data := [1, 1], original_length := 1, bits_per_element := 33 }, .ok [1, 1]) ∧
    zigzag_decompress { compressed_data := [1, 1], original_length := 1, bits_per_element := 33 } [1, 1] =
      ({ compressed_data := [1, 1], original_length := 1, bits_per_element := 33 }, .ok [(-2147483649 : Int)]) ∧
    [(-2147483649 : Int)] ≠ [(2147483648 : Int)] := by decide

/-- C4: the concrete scenario for `[1, 2, 3, 1024, 4, 5, 2048, 6]`.
Amended: simple packing uses `bits_per_element = 12` (2048 has bit
length 12, not 11) and exactly 3 words; the input has 8 distinct values,
so the two outliers are 25 % < 30 % and the overflow analysis ENABLES
the side table (`main_bits = 7`, threshold 127, table `[1024, 2048]`) —
it does not degenerate to simple packing. -/
theorem C4_concrete_scenario :
    simple_compress { compressed_data := [], original_length := 0, bits_per_element := 0 } [1, 2, 3, 1024, 4, 5, 2048, 6] =
      ({ compressed_data := [50339841, 1342455808, 6815744], original_length := 8, bits_per_element := 12 }, .ok [50339841, 1342455808, 6815744]) ∧
    overflow_compress { compressed_data := [], original_length := 0, bits_per_element := 0, overflow_data := [], overflow_bits := 0, main_bits := 0, has_overflow_bit := false, threshold_value := 0 } [1, 2, 3, 1024, 4, 5, 2048, 6] =
      ({ compressed_data := [2147680769, 109118724, 1024, 2048], original_length := 8, bits_per_element := 0, overflow_data := [1024, 2048], overflow_bits := 2, main_bits := 7, has_overflow_bit := true, threshold_value := 127 }, .ok [2147680769, 109118724, 1024, 2048]) ∧
    (sorted_values_of [1, 2, 3, 1024, 4, 5, 2048, 6]).length = 8 := by
  refine ⟨by decide, by decide, by decide⟩

/-- Counterexample to the original C4: `bits_per_element` is not 11, and
the overflow analysis does not disable the side table on this input. -/
theorem C4_concrete_scenario_counterexample :
    (simple_compress { compressed_data := [], original_length := 0, bits_per_element := 0 } [1, 2, 3, 1024, 4, 5, 2048, 6]).1.bits_per_element ≠ 11 ∧
    (analyze_overflow_strategy { compressed_data := [], original_length := 8, bits_per_element := 0, overflow_data := [], overflow_bits := 0, main_bits := 0, has_overflow_bit := false, threshold_value := 0 } [1, 2, 3, 1024, 4, 5, 2048, 6]).has_overflow_bit ≠ false := by
  refine ⟨by decide, by decide⟩

/-- C5: safety of the bit-field write primitive.  Amended: the guarded
`OverflowBitPacking._write_bits` never raises, never changes the array
length, and silently drops a write whose first word is past the end;
but `SimpleBitPacking._write_bits` has no guard and raises `IndexError`
(modelled as `none`) in exactly that situation. -/
theorem C5_write_safety :
    (∀ (array : List Nat) (start num v : Nat),
      (overflow_write_bits array start num v).length = array.length) ∧
    (∀ (array : List Nat) (start num v : Nat),
      array.length ≤ start / 32 → overflow_write_bits array start num v = array) ∧
    (∀ (array : List Nat) (start num v : Nat), num ≠ 0 →
      array.length ≤ start / 32 → write_bits array start num v = none) := by
  refine ⟨?_, ?_, ?_⟩
  · intro array start num v
    simp only [overflow_write_bits]
    split_ifs <;> simp [List.length_set]
  · intro array start num v hle
    simp only [overflow_write_bits]
    by_cases h0 : num = 0
    · rw [if_pos h0]
    · rw [if_neg h0, if_pos hle]
  · intro array start num v h0 hle
    exact write_bits_none array start num v h0 hle

/-- Witness for C5: a 4-bit write starting at bit 64 into a one-word
array is silently dropped by the guarded primitive and raises in the
unguarded one. -/
theorem C5_write_safety_witness :
    (overflow_write_bits [5] 64 4 9).length = [5].length ∧
    overflow_write_bits [5] 64 4 9 = [5] ∧
    write_bits [5] 64 4 9 = none :=
  ⟨C5_write_safety.1 [5] 64 4 9,
   C5_write_safety.2.1 [5] 64 4 9 (by decide),
   C5_write_safety.2.2 [5] 64 4 9 (by decide) (by decide)⟩

/-- Counterexample to the original C5: `SimpleBitPacking._write_bits`
does raise — writing one bit into an empty word array is an
`IndexError` (`none`), not a no-op. -/
theorem C5_write_safety_counterexample :
    write_bits [] 0 1 1 = none := by decide

/-- C6: out-of-bounds reads resolve to the sentinel 0 rather than
raising: `_read_bits` past the end of the word array (or with width 0)
returns 0, and in `OverflowBitPacking.decompress`/`get` a decoded
overflow index at or beyond the overflow region yields 0. -/
theorem C6_oob_read_zero :
    (∀ (array : List Nat) (start num : Nat), array.length * 32 ≤ start →
      read_bits array start num = 0) ∧
    (∀ (array : List Nat) (start : Nat), read_bits array start 0 = 0) ∧
    (∀ (s : OverflowState) (ca : List Nat) (i : Nat),
      ca ≠ [] → i < s.original_length → s.has_overflow_bit = true →
      read_bits (ca.take ((s.original_length * (s.main_bits + 1) + 31) / 32)) (i * (s.main_bits + 1)) (s.main_bits + 1) &&& (1 <<< s.main_bits) ≠ 0 →
      (ca.drop ((s.original_length * (s.main_bits + 1) + 31) / 32)).length ≤ read_bits (ca.take ((s.original_length * (s.main_bits + 1) + 31) / 32)) (i * (s.main_bits + 1)) (s.main_bits + 1) &&& ((1 <<< s.main_bits) - 1) →
      ∃ out, (overflow_decompress s ca).2 = .ok out ∧ out.getD i 0 = 0) ∧
    (∀ (s : OverflowState) (index : Int),
      ¬ (index < 0 ∨ (s.original_length : Int) ≤ index) →
      s.has_overflow_bit = true →
      read_bits (s.compressed_data.take ((s.original_length * (s.main_bits + 1) + 31) / 32)) (index.toNat * (s.main_bits + 1)) (s.main_bits + 1) &&& (1 <<< s.main_bits) ≠ 0 →
      s.compressed_data.length ≤ (s.original_length * (s.main_bits + 1) + 31) / 32 + (read_bits (s.compressed_data.take ((s.original_length * (s.main_bits + 1) + 31) / 32)) (index.toNat * (s.main_bits + 1)) (s.main_bits + 1) &&& ((1 <<< s.main_bits) - 1)) →
      overflow_get s index = .ok 0) := by
  refine ⟨?_, ?_, ?_, ?_⟩
  · intro array start num hle
    rw [read_bits]
    by_cases h0 : num = 0
    · rw [if_pos h0]
    · rw [if_neg h0, if_pos (by omega : array.length ≤ start / 32)]
  · intro array start
    rw [read_bits, if_pos rfl]
  · intro s ca i hne hi hov hflag hoob
    simp only [overflow_decompress]
    rw [if_neg (by simpa [List.isEmpty_iff] using hne)]
    refine ⟨_, rfl, ?_⟩
    rw [List.getD_eq_getElem?_getD, List.getElem?_eq_getElem (by simpa using hi)]
    simp only [Option.getD_some, List.getElem_map, List.getElem_range]
    rw [hov, if_pos rfl, if_pos rfl]
    rw [if_pos (by
      simp only [Bool.true_and, decide_eq_true_eq]
      exact hflag)]
    rw [if_neg (by omega)]
  · intro s index hbnd hov hflag hoob
    simp only [overflow_get]
    rw [if_neg hbnd, hov, if_pos rfl, if_pos rfl]
    rw [if_pos (by
      simp only [Bool.true_and, decide_eq_true_eq]
      exact hflag)]
    rw [if_neg (by omega)]

/-- Witness for C6: a fully out-of-range read, a width-0 read, and a
state whose single encoded element carries the overflow flag with table
index 0 while the overflow region is empty. -/
theorem C6_oob_read_zero_witness :
    read_bits [461] 64 3 = 0 ∧
    read_bits [461] 5 0 = 0 ∧
    (∃ out, (overflow_decompress { compressed_data := [8], original_length := 1, bits_per_element := 0, overflow_data := [], overflow_bits := 0, main_bits := 3, has_overflow_bit := true, threshold_value := 7 } [8]).2 = .ok out ∧ out.getD 0 0 = 0) ∧
    overflow_get { compressed_data := [8], original_length := 1, bits_per_element := 0, overflow_data := [], overflow_bits := 0, main_bits := 3, has_overflow_bit := true, threshold_value := 7 } (0 : Int) = .ok 0 :=
  ⟨C6_oob_read_zero.1 [461] 64 3 (by decide),
   C6_oob_read_zero.2.1 [461] 5,
   C6_oob_read_zero.2.2.1 { compressed_data := [8], original_length := 1, bits_per_element := 0, overflow_data := [], overflow_bits := 0, main_bits := 3, has_overflow_bit := true, threshold_value := 7 } [8] 0 (by decide) (by decide) (by decide) (by decide) (by decide),
   C6_oob_read_zero.2.2.2 { compressed_data := [8], original_length := 1, bits_per_element := 0, overflow_data := [], overflow_bits := 0, main_bits := 3, has_overflow_bit := true, threshold_value := 7 } (0 : Int) (by decide) (by decide) (by decide) (by decide)⟩

/-- C7: bounds checking of `get`.  Amended: after a successful
`compress` on a NON-EMPTY sequence of length `n`, `get(index)` raises
`IndexError` when `index < 0` or `index ≥ n` and returns a value on
every in-range index, for all three strategies.  After `compress([])`
the stored `original_length` is left stale, so the bound that `get`
enforces is the stale one, not 0 (see the counterexample). -/
theorem C7_get_bounds :
    (∀ (s : SimpleState) (array : List Nat) (s' : SimpleState)
      (buf : List Nat) (index : Int), array ≠ [] →
      simple_compress s array = (s', .ok buf) →
      ((index < 0 ∨ (array.length : Int) ≤ index) →
        simple_get s' index = .error .indexError) ∧
      (0 ≤ index → index < (array.length : Int) →
        ∃ v, simple_get s' index = .ok v)) ∧
    (∀ (s : AlignedState) (array : List Int) (s' : AlignedState)
      (buf : List Int) (index : Int), array ≠ [] →
      aligned_compress s array = (s', .ok buf) →
      ((index < 0 ∨ (array.length : Int) ≤ index) →
        aligned_get s' index = .error .indexError) ∧
      (0 ≤ index → index < (array.length : Int) →
        ∃ v, aligned_get s' index = .ok v)) ∧
    (∀ (s : OverflowState) (array : List Nat) (s' : OverflowState)
      (buf : List Nat) (index : Int), array ≠ [] →
      overflow_compress s array = (s', .ok buf) →
      ((index < 0 ∨ (array.length : Int) ≤ index) →
        overflow_get s' index = .error .indexError) ∧
      (0 ≤ index → index < (array.length : Int) →
        ∃ v, overflow_get s' index = .ok v)) := by
  refine ⟨?_, ?_, ?_⟩
  · intro s array s' buf index harr h
    obtain ⟨ws, hc, _, _, _⟩ := simple_compress_ok s array harr
    rw [h] at hc
    have hs' : s' = { s with
        original_length := array.length
        bits_per_element := calculate_bits_needed (array.map Int.ofNat)
        compressed_data := ws } := by
      have := congrArg Prod.fst hc
      simpa using this
    have holen : s'.original_length = array.length := by rw [hs']
    constructor
    · intro hoob
      rw [simple_get, if_pos (by rw [holen]; exact hoob)]
    · intro h0 hlt
      have hi : index.toNat < array.length := by omega
      have hieq : ((index.toNat : Nat) : Int) = index := Int.toNat_of_nonneg h0
      refine ⟨array.getD index.toNat 0, ?_⟩
      have hg := simple_get_spec s s' array buf h index.toNat hi
      rw [hieq] at hg
      exact hg
  · intro s array s' buf index harr h
    by_cases hb32 : calculate_bits_needed
        (array.map (fun value => value - pyMin array)) ≤ 32
    · obtain ⟨ws, hc, hlen, hreads⟩ := aligned_compress_ok s array
        (calculate_bits_needed (array.map (fun value => value - pyMin array)))
        (32 / calculate_bits_needed (array.map (fun value => value - pyMin array)))
        harr rfl rfl hb32
      rw [h] at hc
      have hs' : s' = { s with
          original_length := array.length
          min_value := pyMin array
          bits_per_element := calculate_bits_needed
            (array.map (fun value => value - pyMin array))
          compressed_data := pyMin array :: ws.map Int.ofNat } := by
        have := congrArg Prod.fst hc
        simpa using this
      have holen : s'.original_length = array.length := by rw [hs']
      constructor
      · intro hoob
        rw [aligned_get, if_pos (by rw [holen]; exact hoob)]
      · intro h0 hlt
        have hi : index.toNat < array.length := by omega
        have hieq : ((index.toNat : Nat) : Int) = index := Int.toNat_of_nonneg h0
        refine ⟨array.getD index.toNat 0, ?_⟩
        have hg := aligned_get_spec s s' array buf h index.toNat hi
        rw [hieq] at hg
        exact hg
    · have herr := aligned_compress_err s array harr (by omega)
      rw [h] at herr
      have := congrArg Prod.snd herr
      simp at this
  · intro s array s' buf index harr h
    obtain ⟨ws, od, hc, _, _, _, _, _⟩ := overflow_compress_ok s array harr
      (analyze_overflow_strategy { s with original_length := array.length }
        array)
      ((analyze_overflow_strategy { s with original_length := array.length }
          array).main_bits +
        (if (analyze_overflow_strategy
            { s with original_length := array.length }
            array).has_overflow_bit then 1 else 0)) rfl rfl
    rw [h] at hc
    have hs' : s' = { analyze_overflow_strategy
        { s with original_length := array.length } array with
        overflow_data := od
        compressed_data := ws ++ od } := by
      have := congrArg Prod.fst hc
      simpa using this
    have holen : s'.original_length = array.length := by
      rw [hs']
      show (analyze_overflow_strategy
        { s with original_length := array.length } array).original_length
          = array.length
      exact (analyze_preserves _ _).1
    constructor
    · intro hoob
      rw [overflow_get, if_pos (by rw [holen]; exact hoob)]
    · intro h0 hlt
      have hi : index.toNat < array.length := by omega
      have hieq : ((index.toNat : Nat) : Int) = index := Int.toNat_of_nonneg h0
      refine ⟨array.getD index.toNat 0, ?_⟩
      have hg := overflow_get_spec s s' array buf h index.toNat hi
      rw [hieq] at hg
      exact hg

/-- Witness for C7: the simple clause on `[5, 1, 7]`, with the
out-of-range index 3 and the in-range index 1. -/
theorem C7_get_bounds_witness :
    simple_get { compressed_data := [461], original_length := 3, bits_per_element := 3 } (3 : Int) = .error .indexError ∧
    ∃ v, simple_get { compressed_data := [461], original_length := 3, bits_per_element := 3 } (1 : Int) = .ok v :=
  ⟨(C7_get_bounds.1 { compressed_data := [], original_length := 0, bits_per_element := 0 } [5, 1, 7] { compressed_data := [461], original_length := 3, bits_per_element := 3 } [461] 3 (by decide) (by decide)).1 (by decide),
   (C7_get_bounds.1 { compressed_data := [], original_length := 0, bits_per_element := 0 } [5, 1, 7] { compressed_data := [461], original_length := 3, bits_per_element := 3 } [461] 1 (by decide) (by decide)).2 (by decide) (by decide)⟩

/-- Counterexample to the original C7: calling `compress([])` (length
`n = 0`) leaves the previously stored state untouched, after which
`get(0)` — out of range for the just-compressed sequence — returns a
stale value instead of raising. -/
theorem C7_get_bounds_counterexample :
    simple_compress { compressed_data := [461], original_length := 3, bits_per_element := 3 } [] =
      ({ compressed_data := [461], original_length := 3, bits_per_element := 3 }, .ok []) ∧
    simple_get { compressed_data := [461], original_length := 3, bits_per_element := 3 } (0 : Int) = .ok 5 := by
  refine ⟨by decide, by decide⟩

/-- C8: `decompress` as a pure reader.  Amended: `SimpleBitPacking` and
`OverflowBitPacking.decompress` return the state unchanged, but
`AlignedBitPacking.decompress` overwrites the instance's `min_value`
with `compressed_array[0]` — only the remaining fields are preserved
(see the counterexample). -/
theorem C8_pure_readers :
    (∀ (s : SimpleState) (ca : List Nat), (simple_decompress s ca).1 = s) ∧
    (∀ (s : OverflowState) (ca : List Nat),
      (overflow_decompress s ca).1 = s) ∧
    (∀ (s : AlignedState) (ca : List Int),
      (aligned_decompress s ca).1.original_length = s.original_length ∧
      (aligned_decompress s ca).1.bits_per_element = s.bits_per_element ∧
      (aligned_decompress s ca).1.compressed_data = s.compressed_data) := by
  refine ⟨?_, ?_, ?_⟩
  · intro s ca
    rw [simple_decompress]
    split_ifs <;> rfl
  · intro s ca
    rw [overflow_decompress]
    split_ifs <;> rfl
  · intro s ca
    simp only [aligned_decompress]
    split_ifs <;> exact ⟨rfl, rfl, rfl⟩

/-- Counterexample to the original C8: decompressing a buffer whose
header differs from the stored minimum mutates the instance
(`min_value` becomes 7, the state is not left unchanged). -/
theorem C8_pure_readers_counterexample :
    (aligned_decompress { compressed_data := [], original_length := 3, bits_per_element := 7, min_value := -5 } [7, 0]).1 ≠
      { compressed_data := [], original_length := 3, bits_per_element := 7, min_value := -5 } := by decide

/-- C9: the zigzag decoder inverts the zigzag encoder.  Amended: this
holds exactly on the 32-bit signed range `-2^31 ≤ v < 2^31` for which
the `>> 31` in the encoder is the sign; outside it the pair is not
inverse (see the counterexample). -/
theorem C9_zigzag_inverse (v : Int) (h1 : -(2 ^ 31) ≤ v)
    (h2 : v < 2 ^ 31) : zigzag_decode (zigzag_encode v) = v := by
  have h := zigzag_decode_encode v h1 h2
  rw [Int.ofNat_eq_natCast, Int.toNat_of_nonneg (zigzag_encode_nonneg v)] at h
  exact h

/-- Witness for C9: decode of encode at `-5`. -/
theorem C9_zigzag_inverse_witness :
    -(2 ^ 31) ≤ (-5 : Int) ∧ (-5 : Int) < 2 ^ 31 ∧
    zigzag_decode (zigzag_encode (-5)) = -5 :=
  ⟨by decide, by decide, C9_zigzag_inverse (-5) (by decide) (by decide)⟩

/-- Counterexample to the original C9: at `v = 2^31` the claimed inverse
fails — decoding the encoded value gives `-2^31 - 1`. -/
theorem C9_zigzag_inverse_counterexample :
    zigzag_decode (zigzag_encode 2147483648) = -2147483649 ∧
    zigzag_decode (zigzag_encode 2147483648) ≠ 2147483648 := by
  refine ⟨by decide, by decide⟩

/-- C10: whenever the overflow analysis enables the side table, the
recorded `overflow_bits` never exceeds `main_bits`, the table stays
shorter than `2 ^ main_bits`, and every encoded overflow field reads
back as `2 ^ main_bits + index` with `index < 2 ^ main_bits` — the
table index never spills into the flag bit. -/
theorem C10_overflow_invariant (s : OverflowState) (array : List Nat)
    (harr : array ≠ []) (s1 : OverflowState)
    (hs1 : s1 = analyze_overflow_strategy
      { s with original_length := array.length } array)
    (hov : s1.has_overflow_bit = true) :
    s1.overflow_bits ≤ s1.main_bits ∧
    ∃ ws od : List Nat,
      overflow_compress s array =
        ({ s1 with overflow_data := od, compressed_data := ws ++ od },
          .ok (ws ++ od)) ∧
      od.length < 2 ^ s1.main_bits ∧
      (∀ i, i < array.length → needs_overflow s1 (array.getD i 0) = true →
        od.indexOf (array.getD i 0) < 2 ^ s1.main_bits ∧
        read_bits ws (i * (s1.main_bits + 1)) (s1.main_bits + 1) =
          2 ^ s1.main_bits + od.indexOf (array.getD i 0)) := by
  have hob : s1.overflow_bits ≤ s1.main_bits := by
    have h2 := (analyze_hov_spec { s with original_length := array.length }
      array harr (by rw [← hs1]; exact hov)).2
    rw [← hs1] at h2
    exact h2
  have hw1 : s1.main_bits + 1 =
      s1.main_bits + (if s1.has_overflow_bit then 1 else 0) := by
    rw [hov, if_pos rfl]
  obtain ⟨ws, od, hc, hlen, hws1, hodnod, hodlen, hmain⟩ :=
    overflow_compress_ok s array harr s1 (s1.main_bits + 1) hs1 hw1
  refine ⟨hob, ws, od, hc, hodlen, ?_⟩
  intro i hi hno
  rcases hmain i hi with ⟨_, hmemod, hval⟩ | ⟨hno2, _, _⟩
  · have hidx : od.indexOf (array.getD i 0) < od.length :=
      List.indexOf_lt_length.mpr hmemod
    exact ⟨by omega, hval⟩
  · rw [hno] at hno2
    simp at hno2

/-- Witness for C10: the invariant instantiated at the input
`[1, 2, 3, 1024, 4, 5, 2048, 6]`, whose analysis enables the table with
`main_bits = 7` and `overflow_bits = 2`. -/
theorem C10_overflow_invariant_witness :
    ({ compressed_data := [], original_length := 8, bits_per_element := 0, overflow_data := [], overflow_bits := 2, main_bits := 7, has_overflow_bit := true, threshold_value := 127 } : OverflowState).overflow_bits ≤
      ({ compressed_data := [], original_length := 8, bits_per_element := 0, overflow_data := [], overflow_bits := 2, main_bits := 7, has_overflow_bit := true, threshold_value := 127 } : OverflowState).main_bits :=
  (C10_overflow_invariant { compressed_data := [], original_length := 0, bits_per_element := 0, overflow_data := [], overflow_bits := 0, main_bits := 0, has_overflow_bit := false, threshold_value := 0 } [1, 2, 3, 1024, 4, 5, 2048, 6] (by decide) { compressed_data := [], original_length := 8, bits_per_element := 0, overflow_data := [], overflow_bits := 2, main_bits := 7, has_overflow_bit := true, threshold_value := 127 } (by decide) (by decide)).1
